import Mathlib

/-!
Verification of the robopoker specification against a shallow embedding of
the source. Machine integers are modelled as `Nat` with explicit wrapping
where overflow matters; `f32` quantities that only move through exact
arithmetic are modelled as `ℚ`; fallible code (Rust `panic!`, `expect`,
`unreachable!`) is modelled with `Option`. `BTreeMap`s are modelled as
association lists. Code of the repository that is not part of the given
sources (e.g. `cards/hand.rs`, `cards/rank.rs`, `mccfr/odds.rs`,
`clustering/abstraction.rs`, the crate-level constants) is modelled from the
specification; each such definition carries a doc comment saying so.
-/

/- ===================== Edge (src/src/mccfr/edge.rs) ===================== -/

/-- Modelled from the spec: `Odds` (mccfr/odds.rs is not among the sources) is
"a fraction chosen from a small fixed grid"; `Chips` is an integer type, and
only nonnegative chip counts occur in odds, so an odds value is a pair of
naturals (numerator, denominator). -/
def Odds : Type := ℕ × ℕ

instance : DecidableEq Odds := instDecidableEqProd

/-- `Edge` from src/src/mccfr/edge.rs: `{Draw, Fold, Check, Call, Raise(Odds), Shove}`. -/
inductive Edge : Type
  | draw : Edge
  | fold : Edge
  | check : Edge
  | call : Edge
  | raise : Odds → Edge
  | shove : Edge
deriving DecidableEq

/-- Modelled from the spec: `Odds::GRID` (mccfr/odds.rs is not among the
sources), the "small fixed grid" of raise fractions. The `u8` decoder in
edge.rs maps the range `6..=15` onto grid positions, so the grid has ten
entries; ten standard pot fractions are used. -/
def Odds.GRID : List Odds :=
  [(1, 4), (1, 3), (1, 2), (2, 3), (3, 4), (1, 1), (3, 2), (2, 1), (3, 1), (4, 1)]

/-- `From<Edge> for u8` (edge.rs): tags 1–5 for the atomic actions, `6 + grid
position` for raises. The `.expect("invalid odds value")` on a raise whose
odds are not in the grid is modelled by `Option`. -/
def u8OfEdge : Edge → Option ℕ
  | Edge.draw => some 1
  | Edge.fold => some 2
  | Edge.check => some 3
  | Edge.call => some 4
  | Edge.shove => some 5
  | Edge.raise odds => (Odds.GRID.indexOf? odds).map (fun i => 6 + i)

/-- `From<u8> for Edge` (edge.rs); the `unreachable!` arm is `none`. -/
def edgeOfU8 (value : ℕ) : Option Edge :=
  match value with
  | 1 => some Edge.draw
  | 2 => some Edge.fold
  | 3 => some Edge.check
  | 4 => some Edge.call
  | 5 => some Edge.shove
  | i =>
    if 6 ≤ i ∧ i ≤ 15 then (Odds.GRID.get? (i - 6)).map Edge.raise
    else none

/-- `From<Edge> for u64` (edge.rs): 3-bit variant tag; a raise packs the odds
numerator in bits 3–10 and the denominator in bits 11–18. The `u64` shifts
discard bits above 63, hence the `% 2 ^ 64`. -/
def u64OfEdge : Edge → ℕ
  | Edge.draw => 0
  | Edge.fold => 1
  | Edge.check => 2
  | Edge.call => 3
  | Edge.raise (num, den) => 4 ||| ((num <<< 3) % 2 ^ 64) ||| ((den <<< 11) % 2 ^ 64)
  | Edge.shove => 5

/-- `From<u64> for Edge` (edge.rs): dispatch on the low 3 bits; the
`unreachable!` arm (tags 6 and 7) is `none`. -/
def edgeOfU64 (value : ℕ) : Option Edge :=
  match value &&& 0b111 with
  | 0 => some Edge.draw
  | 1 => some Edge.fold
  | 2 => some Edge.check
  | 3 => some Edge.call
  | 4 => some (Edge.raise ((value >>> 3) &&& 0xFF, (value >>> 11) &&& 0xFF))
  | 5 => some Edge.shove
  | _ => none

/-- An edge the encoders can faithfully carry: any non-raise edge, and a raise
whose odds come from the fixed grid. -/
def Edge.legal : Edge → Prop
  | Edge.raise odds => odds ∈ Odds.GRID
  | _ => True

instance (e : Edge) : Decidable e.legal := by
  cases e <;> simp [Edge.legal] <;> infer_instance

/-- The claim C9 as stated, refuted at the explicit input
`Raise(Odds(256, 1))`: the u64 encoding truncates the numerator to 8 bits and
decodes to `Raise(Odds(0, 1))`, and the u8 encoding panics (models to `none`)
because those odds are not in `Odds::GRID`. -/
theorem edge_roundtrip_fails_at_raise_256_1 :
    edgeOfU64 (u64OfEdge (Edge.raise (256, 1))) ≠ some (Edge.raise (256, 1)) ∧
      edgeOfU64 (u64OfEdge (Edge.raise (256, 1))) = some (Edge.raise (0, 1)) ∧
      (u8OfEdge (Edge.raise (256, 1))).bind edgeOfU8 = none := by
  refine ⟨?_, ?_, ?_⟩ <;> decide

/-- C9 (amended): for every `Edge` that is either a non-raise edge or a raise
whose odds lie in `Odds::GRID`, both integer round-trips are identities:
`Edge::from(u64::from(e)) == e` and `Edge::from(u8::from(e)) == e`. -/
theorem edge_u64_u8_roundtrip (e : Edge) (h : e.legal) :
    edgeOfU64 (u64OfEdge e) = some e ∧ (u8OfEdge e).bind edgeOfU8 = some e := by
  cases e with
  | raise odds =>
    have hmem : odds ∈ Odds.GRID := h
    fin_cases hmem <;> exact ⟨by decide, by decide⟩
  | draw => exact ⟨by decide, by decide⟩
  | fold => exact ⟨by decide, by decide⟩
  | check => exact ⟨by decide, by decide⟩
  | call => exact ⟨by decide, by decide⟩
  | shove => exact ⟨by decide, by decide⟩

/-- Witness for C9's amended theorem at the concrete edge `Raise(Odds(1, 2))`. -/
theorem edge_u64_u8_roundtrip_witness :
    (Edge.raise (1, 2)).legal ∧
      (edgeOfU64 (u64OfEdge (Edge.raise (1, 2))) = some (Edge.raise (1, 2)) ∧
        (u8OfEdge (Edge.raise (1, 2))).bind edgeOfU8 = some (Edge.raise (1, 2))) :=
  ⟨by decide, edge_u64_u8_roundtrip (Edge.raise (1, 2)) (by decide)⟩

/- ============ River equity metric (src/src/clustering/layer.rs) ============ -/

/-- Modelled from the spec: `Abstraction::EQUITIES` (clustering/abstraction.rs
is not among the sources), the number of river equity buckets, "a small
integer, e.g. 50–200"; 100 is used. -/
def EQUITIES : ℕ := 100

/-- One insertion of `Layer::outer_metric` (layer.rs): the key is the XOR of
the two abstraction ids (modelled from the spec: `Pair` is "keyed by XOR of
their ids" and a river abstraction id is its equity-bucket integer), and the
value is `(j - i) as f32`. -/
def riverIns (i j : ℕ) : ℕ × ℚ := (i ^^^ j, ((j - i : ℕ) : ℚ))

/-- `Layer::outer_metric` (layer.rs): `for i in 0..EQUITIES { for j in
i..EQUITIES { metric.insert(Pair(i,j), (j-i) as f32) } }`. The `BTreeMap` is
modelled as an insertion list with newest entry first, looked up by
`riverMetricGet`; a later `insert` with the same key overwrites an earlier
one, which the lookup realizes by returning the newest match. -/
def riverMetric : List (ℕ × ℚ) :=
  (List.range EQUITIES).foldl
    (fun m i =>
      (List.range' i (EQUITIES - i)).foldl (fun m' j => riverIns i j :: m') m)
    []

/-- `BTreeMap::get` on the insertion-list model: newest binding of the key. -/
def riverMetricGet (m : List (ℕ × ℚ)) (key : ℕ) : Option ℚ :=
  (m.find? (fun kv => kv.1 == key)).map Prod.snd

lemma riverInner_mem (i : ℕ) (js : List ℕ) (acc : List (ℕ × ℚ)) (kv : ℕ × ℚ)
    (h : kv ∈ js.foldl (fun m' j => riverIns i j :: m') acc) :
    kv ∈ acc ∨ ∃ j ∈ js, kv = riverIns i j := by
  induction js generalizing acc with
  | nil => exact Or.inl h
  | cons j js ih =>
    rcases ih _ h with hacc | ⟨j', hj', hkv⟩
    · rcases List.mem_cons.mp hacc with h1 | h2
      · exact Or.inr ⟨j, List.mem_cons_self _ _, h1⟩
      · exact Or.inl h2
    · exact Or.inr ⟨j', List.mem_cons_of_mem _ hj', hkv⟩

lemma riverOuter_mem (is : List ℕ) (acc : List (ℕ × ℚ)) (kv : ℕ × ℚ)
    (h : kv ∈ is.foldl
      (fun m i => (List.range' i (EQUITIES - i)).foldl (fun m' j => riverIns i j :: m') m)
      acc) :
    kv ∈ acc ∨ ∃ i ∈ is, ∃ j ∈ List.range' i (EQUITIES - i), kv = riverIns i j := by
  induction is generalizing acc with
  | nil => exact Or.inl h
  | cons i is ih =>
    rcases ih _ h with hacc | ⟨i', hi', hrest⟩
    · rcases riverInner_mem i _ _ _ hacc with h1 | ⟨j, hj, hkv⟩
      · exact Or.inl h1
      · exact Or.inr ⟨i, List.mem_cons_self _ _, j, hj, hkv⟩
    · exact Or.inr ⟨i', List.mem_cons_of_mem _ hi', hrest⟩

lemma riverInner_self (i : ℕ) (js : List ℕ) (acc : List (ℕ × ℚ)) (j : ℕ) (hj : j ∈ js) :
    riverIns i j ∈ js.foldl (fun m' j' => riverIns i j' :: m') acc := by
  induction js generalizing acc with
  | nil => cases hj
  | cons j0 js ih =>
    rcases List.mem_cons.mp hj with rfl | hj'
    · have hsub : ∀ (js' : List ℕ) (acc' : List (ℕ × ℚ)) (kv : ℕ × ℚ), kv ∈ acc' →
          kv ∈ js'.foldl (fun m' j' => riverIns i j' :: m') acc' := by
        intro js'
        induction js' with
        | nil => intro acc' kv hkv; exact hkv
        | cons a as ihs => intro acc' kv hkv; exact ihs _ _ (List.mem_cons_of_mem _ hkv)
      exact hsub js _ _ (List.mem_cons_self _ _)
    · exact ih _ hj'

lemma riverOuter_self (is : List ℕ) (acc : List (ℕ × ℚ)) (i j : ℕ) (hi : i ∈ is)
    (hj : j ∈ List.range' i (EQUITIES - i)) :
    riverIns i j ∈ is.foldl
      (fun m i' => (List.range' i' (EQUITIES - i')).foldl (fun m' j' => riverIns i' j' :: m') m)
      acc := by
  induction is generalizing acc with
  | nil => cases hi
  | cons i0 is ih =>
    rcases List.mem_cons.mp hi with rfl | hi'
    · have hsub : ∀ (is' : List ℕ) (acc' : List (ℕ × ℚ)) (kv : ℕ × ℚ), kv ∈ acc' →
          kv ∈ is'.foldl
            (fun m i' => (List.range' i' (EQUITIES - i')).foldl
              (fun m' j' => riverIns i' j' :: m') m) acc' := by
        intro is'
        induction is' with
        | nil => intro acc' kv hkv; exact hkv
        | cons a as ihs =>
          intro acc' kv hkv
          refine ihs _ _ ?_
          have hsub2 : ∀ (js' : List ℕ) (m : List (ℕ × ℚ)), kv ∈ m →
              kv ∈ js'.foldl (fun m' j' => riverIns a j' :: m') m := by
            intro js'
            induction js' with
            | nil => intro m hm; exact hm
            | cons b bs ihb => intro m hm; exact ihb _ (List.mem_cons_of_mem _ hm)
          exact hsub2 _ _ hkv
      exact hsub is _ _ (riverInner_self i _ acc j hj)
    · exact ih _ hi'

/-- The claim C6 as stated, refuted at the explicit pair `(0, 3)`: the XOR
key of the pair `(0,3)` is `3`, which collides with the key of `(1,2)`; the
later insertion `(1,2) ↦ 1` overwrites `(0,3) ↦ 3`, so the table maps the
Pair of 0 and 3 to 1, not to `|0 - 3| = 3`. -/
theorem river_metric_fails_at_0_3 :
    riverMetricGet riverMetric (0 ^^^ 3) ≠ some ((3 - 0 : ℕ) : ℚ) ∧
      riverMetricGet riverMetric (0 ^^^ 3) = some 1 := by
  exact ⟨by decide, by decide⟩

/-- C6 (amended): for every two river equity buckets `i ≤ j < EQUITIES`, the
table built by `Layer::outer_metric` does hold a binding for the XOR key of
the pair, but its value is `|i' - j'|` for SOME pair `(i', j')` of equity
buckets sharing the same XOR key — the last such pair inserted — and not
necessarily `|i - j|` itself. -/
theorem river_metric_lookup (i j : ℕ) (hij : i ≤ j) (hj : j < EQUITIES) :
    ∃ a b : ℕ, a ≤ b ∧ b < EQUITIES ∧ a ^^^ b = i ^^^ j ∧
      riverMetricGet riverMetric (i ^^^ j) = some ((b - a : ℕ) : ℚ) := by
  have hi : i ∈ List.range EQUITIES := List.mem_range.mpr (lt_of_le_of_lt hij hj)
  have hjr : j ∈ List.range' i (EQUITIES - i) := by
    rw [List.mem_range'_1]
    omega
  have hmem : riverIns i j ∈ riverMetric := riverOuter_self _ _ i j hi hjr
  have hsome : (riverMetric.find? (fun kv => kv.1 == i ^^^ j)).isSome := by
    rw [List.find?_isSome]
    exact ⟨riverIns i j, hmem, by simp [riverIns]⟩
  obtain ⟨kv0, hfind⟩ := Option.isSome_iff_exists.mp hsome
  have hkey : kv0.1 = i ^^^ j := by
    have := List.find?_some hfind
    simpa using this
  have hkv0 : kv0 ∈ riverMetric := List.mem_of_find?_eq_some hfind
  rcases riverOuter_mem _ _ _ hkv0 with hnil | ⟨a, ha, b, hb, hkv⟩
  · cases hnil
  · refine ⟨a, b, ?_, ?_, ?_, ?_⟩
    · rw [List.mem_range'_1] at hb
      exact hb.1
    · rw [List.mem_range'_1] at hb
      have ha' := List.mem_range.mp ha
      omega
    · rw [hkv] at hkey
      exact hkey
    · rw [riverMetricGet, hfind, hkv]
      rfl

/-- Witness for C6's amended theorem at the concrete pair `(0, 3)`. -/
theorem river_metric_lookup_witness :
    (0 : ℕ) ≤ 3 ∧ 3 < EQUITIES ∧
      ∃ a b : ℕ, a ≤ b ∧ b < EQUITIES ∧ a ^^^ b = 0 ^^^ 3 ∧
        riverMetricGet riverMetric (0 ^^^ 3) = some ((b - a : ℕ) : ℚ) :=
  ⟨by decide, by decide, river_metric_lookup 0 3 (by decide) (by decide)⟩

/- ============== Showdown (src/src/gameplay/showdown.rs) ============== -/

/-- `BetStatus` (gameplay seat module): `{Playing, Shoved, Folded}`. -/
inductive BetStatus : Type
  | playing : BetStatus
  | shoved : BetStatus
  | folded : BetStatus
deriving DecidableEq

/-- `Payout{status, staked, reward, score}` as used by showdown.rs; the seat
identity is the position in the payouts list (remainder chips go to winners
in list order). `u32` chip counts and scores are modelled as `ℕ`. -/
structure Payout : Type where
  status : BetStatus
  staked : ℕ
  reward : ℕ
  score : ℕ
deriving DecidableEq

/-- The `Showdown` accumulator state (showdown.rs). -/
structure Showdown : Type where
  payouts : List Payout
  next_score : ℕ
  next_stake : ℕ
  prev_stake : ℕ

/-- `u32::MAX`, the initial `next_score`. -/
def U32MAX : ℕ := 4294967295

/-- `Showdown::new` (showdown.rs): stakes start at `u32::MIN = 0`, the score
ceiling at `u32::MAX`. -/
def Showdown.new (ps : List Payout) : Showdown :=
  ⟨ps, U32MAX, 0, 0⟩

/-- `Showdown::next_score` (showdown.rs): highest non-folded score strictly
below the current one; `.unwrap()` of an empty maximum is `none`. -/
def Showdown.nextScore (s : Showdown) : Option Showdown :=
  (((s.payouts.filter
        (fun p => decide (p.score < s.next_score ∧ p.status ≠ BetStatus.folded))).map
      Payout.score).max?).map
    (fun m => ⟨s.payouts, m, s.next_stake, s.prev_stake⟩)

/-- `Showdown::next_stake` (showdown.rs): `prev_stake` becomes the old
`next_stake`, then the new `next_stake` is the smallest stake above
`prev_stake` among non-folded contenders at `next_score`; `.unwrap()` of an
empty minimum is `none`. -/
def Showdown.nextStake (s : Showdown) : Option Showdown :=
  (((s.payouts.filter
        (fun p => decide (p.score = s.next_score ∧ p.staked > s.next_stake ∧
          p.status ≠ BetStatus.folded))).map
      Payout.staked).min?).map
    (fun m => ⟨s.payouts, s.next_score, m, s.next_stake⟩)

/-- `Showdown::winnings` (showdown.rs): each seat contributes
`min(staked, next_stake) − prev_stake` (ℕ subtraction is saturating, as in
the source's `saturating_sub`). -/
def Showdown.winnings (s : Showdown) : ℕ :=
  (s.payouts.map (fun p => min p.staked s.next_stake - s.prev_stake)).sum

/-- The winner filter of `Showdown::winners` (showdown.rs). -/
def Showdown.isWinner (s : Showdown) (p : Payout) : Bool :=
  decide (p.score = s.next_score ∧ p.staked > s.prev_stake ∧ p.status ≠ BetStatus.folded)

/-- Reward distribution over the payout list: every winner gets `share`, and
the first `rem` winners (in list order) one extra chip; `k` counts winners
already passed. -/
def distRewards (pred : Payout → Bool) (share rem : ℕ) : ℕ → List Payout → List Payout
  | _, [] => []
  | k, p :: rest =>
    if pred p then
      ⟨p.status, p.staked, p.reward + share + (if k < rem then 1 else 0), p.score⟩ ::
        distRewards pred share rem (k + 1) rest
    else p :: distRewards pred share rem k rest

/-- `Showdown::distribute` (showdown.rs): split `winnings` equally among the
winners, remainder one chip at a time in list order; integer division by zero
winners would panic, modelled as `none`. -/
def Showdown.distribute (s : Showdown) : Option Showdown :=
  let w := s.winnings
  let n := (s.payouts.filter s.isWinner).length
  if n = 0 then none
  else some ⟨distRewards s.isWinner (w / n) (w % n) 0 s.payouts,
    s.next_score, s.next_stake, s.prev_stake⟩

/-- `Showdown::is_complete` (showdown.rs): all staked chips distributed. -/
def Showdown.isComplete (s : Showdown) : Bool :=
  decide ((s.payouts.map Payout.staked).sum = (s.payouts.map Payout.reward).sum)

/-- The inner `loop` of `Showdown::payouts` (showdown.rs): stake, distribute,
return on completion. The loop in the source can fail to terminate (it panics
on `.unwrap()` instead of breaking); the model carries fuel and returns
`none` where the source would panic or loop. -/
def showdownInner : ℕ → Showdown → Option (List Payout)
  | 0, _ => none
  | fuel + 1, s =>
    (s.nextStake).bind (fun s1 =>
      (s1.distribute).bind (fun s2 =>
        if s2.isComplete then some s2.payouts else showdownInner fuel s2))

/-- `Showdown::payouts` (showdown.rs). The outer `loop` runs `next_score`
once and enters the inner `loop`, which never breaks back out (it only
returns or panics), so the outer loop's later iterations are unreachable. -/
def showdownPayouts (fuel : ℕ) (ps : List Payout) : Option (List Payout) :=
  ((Showdown.new ps).nextScore).bind (showdownInner fuel)

/-- The three-seat scenario of claim C3. -/
def showdownInputC3 : List Payout :=
  [⟨BetStatus.playing, 10, 0, 9⟩, ⟨BetStatus.playing, 20, 0, 9⟩, ⟨BetStatus.playing, 20, 0, 8⟩]

/-- The claim C3 as stated, refuted on its own explicit input: the code
returns rewards `{15, 35, 0}`, not `{15, 25, 10}`. The second seat (score 9)
also contests the 20-chip side pot and beats the third seat (score 8), so the
third seat wins nothing. -/
theorem showdown_claim_fails :
    ((showdownPayouts 100 showdownInputC3).map (fun ps => ps.map Payout.reward)) ≠
        some [15, 25, 10] ∧
      ((showdownPayouts 100 showdownInputC3).map (fun ps => ps.map Payout.reward)) =
        some [15, 35, 0] := by
  exact ⟨by decide, by decide⟩

/-- C3 (amended): showdown settlement on `[staked=10 score=9, staked=20
score=9, staked=20 score=8]`, all `Playing`, returns rewards `{15, 35, 0}`:
the first two seats split the 30-chip main pot (15 each), the second seat
alone wins the 20-chip side pot (its score 9 beats the third seat's 8), and
chips are conserved: the rewards total 50 = 10 + 20 + 20. -/
theorem showdown_payouts_concrete :
    ((showdownPayouts 100 showdownInputC3).map (fun ps => ps.map Payout.reward)) =
        some [15, 35, 0] ∧
      ((showdownPayouts 100 showdownInputC3).map
          (fun ps => (ps.map Payout.reward).sum)) = some 50 := by
  exact ⟨by decide, by decide⟩

/- ============ Observation ↔ i64 (src/src/cards/observation.rs) ============ -/

/-- Modelled from the spec: a `Hand` (cards/hand.rs is not among the sources)
is "a 64-bit value with one bit per card", cards being integers in [0, 52);
iterating a hand yields its set cards (ascending card index — the round-trip
does not depend on the order). -/
def handToList (h : ℕ) : List ℕ :=
  (List.range 52).filter (fun c => h.testBit c)

/-- `Hand::size`: the number of set bits (all hands here are 52-bit). -/
def handCount (h : ℕ) : ℕ := (handToList h).length

/-- `Observation` (observation.rs): pocket and public hands. -/
structure Observation : Type where
  pocket : ℕ
  public : ℕ
deriving DecidableEq

/-- A legal observation: 2 pocket cards, 0/3/4/5 public cards, disjoint. -/
def Observation.legal (o : Observation) : Prop :=
  o.pocket < 2 ^ 52 ∧ o.public < 2 ^ 52 ∧ handCount o.pocket = 2 ∧
    (handCount o.public = 0 ∨ handCount o.public = 3 ∨ handCount o.public = 4 ∨
      handCount o.public = 5) ∧
    o.pocket &&& o.public = 0

instance (o : Observation) : Decidable o.legal := by
  unfold Observation.legal
  infer_instance

/-- The byte-packing fold of `From<Observation> for i64` (observation.rs):
`acc << 8 | (1 + card)`. -/
def encodeList (l : List ℕ) : ℕ :=
  l.foldl (fun acc c => acc <<< 8 ||| (1 + c)) 0

/-- `From<Observation> for i64` (observation.rs): chain public then pocket
cards and pack each as a `1 + card` byte from the LSB. The value stays below
`2 ^ 56`, so the `as i64` cast truncates nothing. -/
def i64OfObservation (o : Observation) : ℕ :=
  encodeList (handToList o.public ++ handToList o.pocket)

/-- One byte back to a card (observation.rs `bits as u8 - 1` plus
`Card::from`): byte 0 underflows (panic), and a card must be in [0, 52)
(modelled from the spec; cards/card.rs is not among the sources). -/
def cardOfByte (b : ℕ) : Option ℕ :=
  if b = 0 then none else if b - 1 < 52 then some (b - 1) else none

/-- The `while bits > 0` loop of `From<i64> for Observation` (observation.rs):
the first two decoded cards form the pocket, the rest the public hand. -/
def obsDecodeLoop (bits i pocket public : ℕ) : Option (ℕ × ℕ) :=
  if hb : bits = 0 then some (pocket, public)
  else
    match cardOfByte (bits % 256) with
    | none => none
    | some c =>
      if i < 2 then obsDecodeLoop (bits >>> 8) (i + 1) (pocket ||| (1 <<< c)) public
      else obsDecodeLoop (bits >>> 8) (i + 1) pocket (public ||| (1 <<< c))
termination_by bits
decreasing_by
  all_goals
    rw [Nat.shiftRight_eq_div_pow]
    exact Nat.div_lt_self (Nat.pos_of_ne_zero hb) (by norm_num)

/-- `From<i64> for Observation` (observation.rs), including its two `assert!`s
and the one in `From<(Hand, Hand)>`, modelled as guards. -/
def observationOfI64 (bits : ℕ) : Option Observation :=
  match obsDecodeLoop bits 0 0 0 with
  | none => none
  | some (p, q) => if handCount p = 2 ∧ handCount q ≤ 5 then some ⟨p, q⟩ else none

lemma handToList_lt (h : ℕ) : ∀ c ∈ handToList h, c < 52 := by
  intro c hc
  have := List.mem_filter.mp hc
  exact List.mem_range.mp this.1

lemma foldl_lor_testBit (l : List ℕ) (acc k : ℕ) :
    (l.foldl (fun a c => a ||| (1 <<< c)) acc).testBit k = true ↔
      acc.testBit k = true ∨ k ∈ l := by
  induction l generalizing acc with
  | nil => simp
  | cons c l ih =>
    rw [List.foldl_cons, ih]
    rw [Nat.testBit_lor]
    have h1 : (1 <<< c).testBit k = true ↔ c = k := by
      rw [Nat.one_shiftLeft, Nat.testBit_two_pow]
      simp
    constructor
    · rintro (h | h)
      · rcases Bool.or_eq_true_iff.mp h with h' | h'
        · exact Or.inl h'
        · exact Or.inr (List.mem_cons.mpr (Or.inl (h1.mp h').symm))
      · exact Or.inr (List.mem_cons.mpr (Or.inr h))
    · rintro (h | h)
      · exact Or.inl (Bool.or_eq_true_iff.mpr (Or.inl h))
      · rcases List.mem_cons.mp h with rfl | h'
        · exact Or.inl (Bool.or_eq_true_iff.mpr (Or.inr (h1.mpr rfl)))
        · exact Or.inr h'

lemma mem_handToList (h k : ℕ) : k ∈ handToList h ↔ k < 52 ∧ h.testBit k = true := by
  constructor
  · intro hm
    have h2 := List.mem_filter.mp hm
    exact ⟨List.mem_range.mp h2.1, by simpa using h2.2⟩
  · intro hkk
    exact List.mem_filter.mpr ⟨List.mem_range.mpr hkk.1, by simpa using hkk.2⟩

lemma foldl_lor_handToList (h : ℕ) (hh : h < 2 ^ 52) :
    (handToList h).foldl (fun a c => a ||| (1 <<< c)) 0 = h := by
  apply Nat.eq_of_testBit_eq
  intro k
  have hiff := foldl_lor_testBit (handToList h) 0 k
  by_cases hk : h.testBit k = true
  · have hk52 : k < 52 := by
      by_contra hge
      have hlt : h < 2 ^ k :=
        lt_of_lt_of_le hh (Nat.pow_le_pow_right (by norm_num) (by omega))
      rw [Nat.testBit_eq_false_of_lt hlt] at hk
      cases hk
    rw [hk]
    exact hiff.mpr (Or.inr ((mem_handToList h k).mpr ⟨hk52, hk⟩))
  · have hk' : h.testBit k = false := by
      cases hb : h.testBit k
      · rfl
      · exact absurd hb hk
    rw [hk']
    cases hb2 : (List.foldl (fun a c => a ||| 1 <<< c) 0 (handToList h)).testBit k
    · rfl
    · rcases hiff.mp hb2 with h0 | hm
      · rw [Nat.zero_testBit] at h0
        cases h0
      · exact absurd ((mem_handToList h k).mp hm).2 hk

lemma encodeList_concat (l : List ℕ) (c : ℕ) (hc : c < 52) :
    encodeList (l ++ [c]) = 256 * encodeList l + (1 + c) := by
  have h256 : (2 : ℕ) ^ 8 = 256 := by norm_num
  have hlt : 1 + c < 2 ^ 8 := by omega
  have h1 : encodeList (l ++ [c]) = (encodeList l) <<< 8 ||| (1 + c) := by
    simp [encodeList, List.foldl_append]
  rw [h1, Nat.shiftLeft_eq, Nat.mul_comm, ← Nat.mul_add_lt_is_or hlt]

lemma obsDecodeLoop_concat (l : List ℕ) (c i p q : ℕ) (hc : c < 52) :
    obsDecodeLoop (encodeList (l ++ [c])) i p q =
      if i < 2 then obsDecodeLoop (encodeList l) (i + 1) (p ||| (1 <<< c)) q
      else obsDecodeLoop (encodeList l) (i + 1) p (q ||| (1 <<< c)) := by
  have hE := encodeList_concat l c hc
  have hne : encodeList (l ++ [c]) ≠ 0 := by omega
  have hmod : encodeList (l ++ [c]) % 256 = 1 + c := by
    rw [hE]
    omega
  have hdiv : encodeList (l ++ [c]) >>> 8 = encodeList l := by
    rw [Nat.shiftRight_eq_div_pow, hE]
    have h256 : (2 : ℕ) ^ 8 = 256 := by norm_num
    rw [h256]
    omega
  rw [obsDecodeLoop]
  rw [dif_neg hne, hmod]
  have hcard : cardOfByte (1 + c) = some c := by
    rw [cardOfByte, if_neg (by omega), if_pos (by omega)]
    congr 1
    omega
  rw [hcard, hdiv]

lemma obsDecodeLoop_tail (l : List ℕ) (i p q : ℕ) (hl : ∀ x ∈ l, x < 52) (hi : 2 ≤ i) :
    obsDecodeLoop (encodeList l) i p q =
      some (p, q ||| (l.foldl (fun a c => a ||| (1 <<< c)) 0)) := by
  induction l using List.reverseRecOn generalizing q i with
  | nil =>
    rw [show encodeList [] = 0 from rfl]
    rw [obsDecodeLoop]
    simp
  | append_singleton l c ih =>
    have hc : c < 52 := hl c (by simp)
    rw [obsDecodeLoop_concat l c i p q hc, if_neg (by omega)]
    rw [ih (i + 1) (q ||| (1 <<< c)) (fun x hx => hl x (by simp [hx])) (by omega)]
    congr 1
    rw [List.foldl_append]
    simp only [List.foldl_cons, List.foldl_nil]
    rw [Nat.or_assoc, Nat.or_comm (1 <<< c)]

lemma observation_roundtrip_aux (o : Observation) (h : o.legal) :
    observationOfI64 (i64OfObservation o) = some o := by
  obtain ⟨hp52, hq52, hpc, hqc, _⟩ := h
  obtain ⟨a, b, hab⟩ := List.length_eq_two.mp hpc
  have ha : a < 52 := handToList_lt o.pocket a (by rw [hab]; simp)
  have hb : b < 52 := handToList_lt o.pocket b (by rw [hab]; simp)
  have hsplit : handToList o.public ++ handToList o.pocket =
      (handToList o.public ++ [a]) ++ [b] := by
    rw [hab]
    simp
  have hstep : obsDecodeLoop (i64OfObservation o) 0 0 0 =
      some (0 ||| (1 <<< b) ||| (1 <<< a),
        0 ||| ((handToList o.public).foldl (fun x c => x ||| (1 <<< c)) 0)) := by
    rw [i64OfObservation, hsplit]
    rw [obsDecodeLoop_concat _ b 0 0 0 hb, if_pos (by omega)]
    rw [obsDecodeLoop_concat _ a 1 _ 0 ha, if_pos (by omega)]
    exact obsDecodeLoop_tail _ 2 _ 0 (handToList_lt o.public) (by omega)
  have hpock : 0 ||| (1 <<< b) ||| (1 <<< a) = o.pocket := by
    have hfold := foldl_lor_handToList o.pocket hp52
    rw [hab] at hfold
    simp only [List.foldl_cons, List.foldl_nil] at hfold
    rw [← hfold, Nat.or_assoc, Nat.or_assoc, Nat.or_comm (1 <<< b) (1 <<< a)]
  have hpub : 0 ||| ((handToList o.public).foldl (fun x c => x ||| (1 <<< c)) 0) =
      o.public := by
    rw [Nat.zero_or]
    exact foldl_lor_handToList o.public hq52
  rw [observationOfI64, hstep, hpock, hpub]
  have hq5 : handCount o.public ≤ 5 := by omega
  show (if handCount o.pocket = 2 ∧ handCount o.public ≤ 5 then
      some (Observation.mk o.pocket o.public) else none) = some o
  rw [if_pos ⟨hpc, hq5⟩]

/-- C1: for every legal observation (2 pocket cards, 0/3/4/5 public cards,
pocket and public disjoint), decoding the i64 encoding yields the observation
back — `Observation::from(i64::from(o)) == o` — and the encoding is injective
over legal observations. -/
theorem observation_i64_bijective (o : Observation) (h : o.legal) :
    observationOfI64 (i64OfObservation o) = some o ∧
      ∀ o' : Observation, o'.legal → i64OfObservation o' = i64OfObservation o → o' = o := by
  refine ⟨observation_roundtrip_aux o h, ?_⟩
  intro o' h' heq
  have r1 := observation_roundtrip_aux o' h'
  have r2 := observation_roundtrip_aux o h
  rw [heq, r2] at r1
  exact (Option.some.inj r1).symm

/-- Witness for C1 at the concrete preflop observation with pocket cards 0
and 1 (bitboard 3) and no public cards. -/
theorem observation_i64_bijective_witness :
    (Observation.mk 3 0).legal ∧
      (observationOfI64 (i64OfObservation (Observation.mk 3 0)) = some (Observation.mk 3 0) ∧
        ∀ o' : Observation, o'.legal →
          i64OfObservation o' = i64OfObservation (Observation.mk 3 0) →
            o' = Observation.mk 3 0) :=
  ⟨by decide, observation_i64_bijective (Observation.mk 3 0) (by decide)⟩

/- ============== MCCFR Profile (src/src/mccfr/profile.rs) ============== -/

section AssocMap

variable {κ α : Type} [DecidableEq κ]

/-- `BTreeMap::get`, on the association-list model of a map. -/
def getA : List (κ × α) → κ → Option α
  | [], _ => none
  | kv :: rest, k => if kv.1 = k then some kv.2 else getA rest k

/-- `BTreeMap::get_mut` followed by a mutation of the value in place. -/
def setA : List (κ × α) → κ → (α → α) → List (κ × α)
  | [], _, _ => []
  | kv :: rest, k, f => if kv.1 = k then (k, f kv.2) :: rest else kv :: setA rest k f

/-- `BTreeMap::entry(k).or_insert(d)`: keep the map if the key is present,
otherwise add the binding (at the end; the claims below never depend on the
iteration order of the map). -/
def entryA (m : List (κ × α)) (k : κ) (d : α) : List (κ × α) :=
  if (getA m k).isSome then m else m ++ [(k, d)]

lemma getA_append_none (m₁ m₂ : List (κ × α)) (k : κ) (h : getA m₁ k = none) :
    getA (m₁ ++ m₂) k = getA m₂ k := by
  induction m₁ with
  | nil => rfl
  | cons kv rest ih =>
    by_cases hk : kv.1 = k
    · rw [getA, if_pos hk] at h
      cases h
    · rw [getA, if_neg hk] at h
      rw [List.cons_append, getA, if_neg hk]
      exact ih h

lemma getA_append_single_self (m : List (κ × α)) (k : κ) (v : α) (h : getA m k = none) :
    getA (m ++ [(k, v)]) k = some v := by
  rw [getA_append_none m _ k h, getA, if_pos rfl]

lemma getA_of_none_ne (m : List (κ × α)) (k k' : κ) (h : getA m k = none) (v : α)
    (hne : k' ≠ k) : getA (m ++ [(k', v)]) k = none := by
  rw [getA_append_none m _ k h, getA, if_neg hne]
  rfl

lemma setA_append_of_none (m₁ m₂ : List (κ × α)) (k : κ) (f : α → α)
    (h : getA m₁ k = none) : setA (m₁ ++ m₂) k f = m₁ ++ setA m₂ k f := by
  induction m₁ with
  | nil => rfl
  | cons kv rest ih =>
    by_cases hk : kv.1 = k
    · rw [getA, if_pos hk] at h
      cases h
    · rw [getA, if_neg hk] at h
      rw [List.cons_append, setA, if_neg hk, List.cons_append, ih h]

lemma getA_setA_ne (m : List (κ × α)) (k k' : κ) (f : α → α) (h : k' ≠ k) :
    getA (setA m k f) k' = getA m k' := by
  induction m with
  | nil => rfl
  | cons kv rest ih =>
    by_cases hk : kv.1 = k
    · subst hk
      rw [setA, if_pos rfl, getA, getA]
      rw [if_neg (fun hh => h hh.symm), if_neg (fun hh => h hh.symm)]
    · rw [setA, if_neg hk, getA, getA]
      by_cases hk' : kv.1 = k'
      · rw [if_pos hk', if_pos hk']
      · rw [if_neg hk', if_neg hk', ih]

lemma getA_setA_self (m : List (κ × α)) (k : κ) (f : α → α) (v : α)
    (h : getA m k = some v) : getA (setA m k f) k = some (f v) := by
  induction m with
  | nil => cases h
  | cons kv rest ih =>
    by_cases hk : kv.1 = k
    · rw [getA, if_pos hk] at h
      rw [setA, if_pos hk, getA, if_pos rfl, Option.some.inj h]
    · rw [getA, if_neg hk] at h
      rw [setA, if_neg hk, getA, if_neg hk]
      exact ih h

lemma setA_of_getA_none (m : List (κ × α)) (k : κ) (f : α → α) (h : getA m k = none) :
    setA m k f = m := by
  induction m with
  | nil => rfl
  | cons kv rest ih =>
    by_cases hk : kv.1 = k
    · rw [getA, if_pos hk] at h
      cases h
    · rw [getA, if_neg hk] at h
      rw [setA, if_neg hk, ih h]

lemma entryA_of_none (m : List (κ × α)) (k : κ) (d : α) (h : getA m k = none) :
    entryA m k d = m ++ [(k, d)] := by
  rw [entryA, h]
  rfl

lemma entryA_of_some (m : List (κ × α)) (k : κ) (d v : α) (h : getA m k = some v) :
    entryA m k d = m := by
  rw [entryA, h]
  rfl

end AssocMap

/-- `Bucket = (past: Path, abstraction, future: Path)`, three 64-bit values
(mccfr/bucket.rs uses `Path`/`Abstraction` newtypes over `u64`). -/
def Bucket : Type := ℕ × ℕ × ℕ

instance : DecidableEq Bucket := instDecidableEqProd

/-- `Decision { policy, regret }` (profile.rs); the two `f32`s are modelled
as exact rationals. -/
structure Decision : Type where
  policy : ℚ
  regret : ℚ
deriving DecidableEq

/-- `Branch(Data, Edge, NodeIndex)` (mccfr/tree.rs): only the edge matters
here; data and node handle are opaque naturals. -/
def Branch : Type := ℕ × Edge × ℕ

/-- The edge of a branch (`Branch(_, e, _)`). -/
def Branch.edge (br : Branch) : Edge := br.2.1

/-- `Profile { iterations, strategies }` (profile.rs). -/
structure Profile : Type where
  iterations : ℕ
  strategies : List (Bucket × List (Edge × Decision))
deriving DecidableEq

/-- Modelled from the spec: the crate-level clamp `REGRET_MIN` (the crate
root with the constants is not among the sources; the spec fixes no numeric
value, only that it is the lower clamp). -/
def REGRET_MIN : ℚ := -300000

/-- Modelled from the spec: the crate-level clamp `REGRET_MAX`. -/
def REGRET_MAX : ℚ := 300000

/-- Modelled from the spec: `CFR_DISCOUNT_PHASE`, the epoch below which the
DCFR discount is applied (no numeric value in the spec). -/
def CFR_DISCOUNT_PHASE : ℕ := 100

/-- Modelled from the spec: `CFR_PRUNNING_PHASE` (sic), the epoch at which
pruning would begin (no numeric value in the spec). -/
def CFR_PRUNNING_PHASE : ℕ := 100000

/-- `Phase` (profile.rs). -/
inductive Phase : Type
  | discount : Phase
  | explore : Phase
  | prune : Phase
deriving DecidableEq

/-- `From<usize> for Phase` (profile.rs). -/
def phaseOfEpochs (e : ℕ) : Phase :=
  if e < CFR_DISCOUNT_PHASE then Phase.discount
  else if e < CFR_PRUNNING_PHASE then Phase.explore
  else Phase.prune

/-- `Discount::default().period` (profile.rs). -/
def DCFR_PERIOD : ℕ := 1

/-- `Discount::regret` (profile.rs). `f32::powf` is not rational, so the
model takes the power function as a parameter `powf`; the code uses
`x = powf(t / period, α)` for positive regret and `x = powf(t / period, ω)`
for negative regret, with α = 1.5 and ω = 0.5, and multiplies by
`x / (x + 1)`. -/
def discountRegret (powf : ℚ → ℚ → ℚ) (t : ℕ) (regret : ℚ) : ℚ :=
  if t % DCFR_PERIOD ≠ 0 then 1
  else if regret > 0 then
    (powf ((t : ℚ) / (DCFR_PERIOD : ℚ)) (3 / 2)) /
      ((powf ((t : ℚ) / (DCFR_PERIOD : ℚ)) (3 / 2)) + 1)
  else if regret < 0 then
    (powf ((t : ℚ) / (DCFR_PERIOD : ℚ)) (1 / 2)) /
      ((powf ((t : ℚ) / (DCFR_PERIOD : ℚ)) (1 / 2)) + 1)
  else 1

/-- The `let discount = match phase { Discount => .., Explore => 1, Prune
=> 1 }` selection inside `Profile::regret_update` (profile.rs). -/
def regretDiscount (powf : ℚ → ℚ → ℚ) (t : ℕ) (phase : Phase) (regret : ℚ) : ℚ :=
  match phase with
  | Phase.discount => discountRegret powf t regret
  | Phase.explore => 1
  | Phase.prune => 1

/-- The per-action body of the `for (action, &regret)` loop in
`Profile::regret_update` (profile.rs): `decision.regret *= discount;
decision.regret += regret`, with the discount selected by phase. A missing
action (`expect("action been witnessed")`) is `none`. -/
def regretUpdateInner (powf : ℚ → ℚ → ℚ) (t : ℕ) (phase : Phase) :
    List (Edge × ℚ) → List (Edge × Decision) → Option (List (Edge × Decision))
  | [], strategy => some strategy
  | (action, regret) :: rest, strategy =>
    (getA strategy action).bind (fun _ =>
      regretUpdateInner powf t phase rest
        (setA strategy action
          (fun dc => ⟨dc.policy, dc.regret * regretDiscount powf t phase regret + regret⟩)))

/-- `Profile::regret_update` (profile.rs): look up the witnessed bucket
(`expect` is `none`) and fold the per-action update over the regret vector. -/
def regretUpdate (powf : ℚ → ℚ → ℚ) (p : Profile) (b : Bucket)
    (regrets : List (Edge × ℚ)) : Option Profile :=
  match getA p.strategies b with
  | none => none
  | some strategy =>
    (regretUpdateInner powf p.iterations (phaseOfEpochs p.iterations) regrets strategy).map
      (fun strategy' => ⟨p.iterations, setA p.strategies b (fun _ => strategy')⟩)

/-- One iteration of the `for Branch(_, edge, _) in children` loop in
`Profile::witness` (profile.rs): `entry(bucket).or_insert(map)`,
`entry(edge).or_insert(Decision::default())`, then `.policy = uniform`. -/
def witnessStep (s : List (Bucket × List (Edge × Decision))) (bucket : Bucket)
    (edge : Edge) (uniform : ℚ) : List (Bucket × List (Edge × Decision)) :=
  setA (entryA s bucket []) bucket
    (fun strategy => setA (entryA strategy edge ⟨0, 0⟩) edge (fun dc => ⟨uniform, dc.regret⟩))

/-- `Profile::witness` (profile.rs): on a seen bucket assert the edge sets
match (`assert!` is `none` on failure); on an unseen bucket initialize each
child edge with uniform policy `1 / children.len()`. -/
def witness (p : Profile) (bucket : Bucket) (children : List Branch) : Option Profile :=
  match getA p.strategies bucket with
  | some strategy =>
    if (children.map Branch.edge).toFinset = (strategy.map Prod.fst).toFinset
    then some p else none
  | none =>
    let uniform : ℚ := 1 / (children.length : ℚ)
    some ⟨p.iterations,
      children.foldl (fun s br => witnessStep s bucket br.edge uniform) p.strategies⟩


/-- `Profile::policy` (profile.rs): the stored weight normalized by the sum
of the bucket's weights; both `expect`s are `none`. -/
def policyGet (p : Profile) (bucket : Bucket) (edge : Edge) : Option ℚ :=
  (getA p.strategies bucket).bind (fun strategy =>
    (getA strategy edge).map (fun dec =>
      dec.policy / (strategy.map (fun kv => kv.2.policy)).sum))

lemma witnessStep_fresh (s : List (Bucket × List (Edge × Decision))) (bucket : Bucket)
    (e : Edge) (u : ℚ) (hbs : getA s bucket = none) :
    witnessStep s bucket e u = s ++ [(bucket, [(e, ⟨u, 0⟩)])] := by
  rw [witnessStep, entryA_of_none _ _ _ hbs, setA_append_of_none _ _ _ _ hbs]
  rw [setA, if_pos rfl]
  have hnone : getA ([] : List (Edge × Decision)) e = none := rfl
  have hinner : setA (entryA ([] : List (Edge × Decision)) e ⟨0, 0⟩) e
      (fun dc => ⟨u, dc.regret⟩) = [(e, ⟨u, 0⟩)] := by
    rw [entryA_of_none _ _ _ hnone, List.nil_append, setA, if_pos rfl]
  rw [hinner]

lemma witnessStep_grow (s₀ : List (Bucket × List (Edge × Decision)))
    (inner : List (Edge × Decision)) (bucket : Bucket) (e : Edge) (u : ℚ)
    (hbs : getA s₀ bucket = none) (he : getA inner e = none) :
    witnessStep (s₀ ++ [(bucket, inner)]) bucket e u =
      s₀ ++ [(bucket, inner ++ [(e, ⟨u, 0⟩)])] := by
  have hget : getA (s₀ ++ [(bucket, inner)]) bucket = some inner :=
    getA_append_single_self _ _ _ hbs
  rw [witnessStep, entryA_of_some _ _ _ _ hget, setA_append_of_none _ _ _ _ hbs]
  rw [setA, if_pos rfl]
  have hinner : setA (entryA inner e ⟨0, 0⟩) e (fun dc => ⟨u, dc.regret⟩) =
      inner ++ [(e, ⟨u, 0⟩)] := by
    rw [entryA_of_none _ _ _ he, setA_append_of_none _ _ _ _ he, setA, if_pos rfl]
  rw [hinner]

lemma witnessFold (bucket : Bucket) (u : ℚ) (children : List Branch)
    (s₀ : List (Bucket × List (Edge × Decision))) (inner : List (Edge × Decision))
    (hbs : getA s₀ bucket = none)
    (hfresh : ∀ br ∈ children, getA inner br.edge = none)
    (hnd : (children.map Branch.edge).Nodup) :
    children.foldl (fun s br => witnessStep s bucket br.edge u) (s₀ ++ [(bucket, inner)]) =
      s₀ ++ [(bucket, inner ++ children.map (fun br => (br.edge, ⟨u, 0⟩)))] := by
  induction children generalizing inner with
  | nil => simp
  | cons br rest ih =>
    rw [List.map_cons] at hnd
    have hbr : getA inner br.edge = none := hfresh br (List.mem_cons_self _ _)
    rw [List.foldl_cons, witnessStep_grow s₀ inner bucket br.edge u hbs hbr]
    have hfresh' : ∀ br' ∈ rest, getA (inner ++ [(br.edge, ⟨u, 0⟩)]) br'.edge = none := by
      intro br' hbr'
      have hne : br.edge ≠ br'.edge := by
        intro hcontra
        exact (List.nodup_cons.mp hnd).1 (hcontra ▸ List.mem_map_of_mem Branch.edge hbr')
      exact getA_of_none_ne _ _ _ (hfresh br' (List.mem_cons_of_mem _ hbr')) _ hne
    rw [ih _ hfresh' (List.nodup_cons.mp hnd).2]
    rw [List.map_cons, List.append_assoc]
    rfl

lemma getA_map_edge_const (children : List Branch) (d : Decision) (br : Branch)
    (hbr : br ∈ children) :
    getA (children.map (fun br' => (br'.edge, d))) br.edge = some d := by
  induction children with
  | nil => cases hbr
  | cons hd tl ih =>
    rw [List.map_cons, getA]
    by_cases he : hd.edge = br.edge
    · rw [if_pos he]
    · rcases List.mem_cons.mp hbr with rfl | htl
      · exact absurd rfl he
      · rw [if_neg he]
        exact ih htl

lemma sum_map_const_rat {α : Type} (l : List α) (q : ℚ) :
    (l.map (fun _ => q)).sum = (l.length : ℚ) * q := by
  induction l with
  | nil => simp
  | cons a l ih =>
    rw [List.map_cons, List.sum_cons, ih, List.length_cons]
    push_cast
    ring

/-- C7: witnessing an unseen bucket with a non-empty list of child branches
(one branch per distinct edge, as the tree provides) gives every child edge
the normalized policy `1/|children|`, and the policies over the bucket's
edges sum to exactly 1 (the model is exact rational arithmetic, so the
claim's floating-point tolerance is met exactly). -/
theorem witness_uniform_policy (p : Profile) (bucket : Bucket) (children : List Branch)
    (hun : getA p.strategies bucket = none) (hne : children ≠ [])
    (hnd : (children.map Branch.edge).Nodup) :
    ∃ p', witness p bucket children = some p' ∧
      (∀ br ∈ children,
        policyGet p' bucket br.edge = some (1 / (children.length : ℚ))) ∧
      ∃ strategy, getA p'.strategies bucket = some strategy ∧
        ((strategy.map Prod.fst).map (fun e => (policyGet p' bucket e).getD 0)).sum = 1 := by
  rcases children with _ | ⟨br0, rest⟩
  · exact absurd rfl hne
  set children := br0 :: rest with hchildren
  set u : ℚ := 1 / (children.length : ℚ) with hu
  have hwit : witness p bucket children =
      some ⟨p.iterations,
        children.foldl (fun s br => witnessStep s bucket br.edge u) p.strategies⟩ := by
    rw [witness, hun]
  have hfold : children.foldl (fun s br => witnessStep s bucket br.edge u) p.strategies =
      p.strategies ++ [(bucket, children.map (fun br => (br.edge, ⟨u, 0⟩)))] := by
    rw [hchildren, List.foldl_cons, witnessStep_fresh p.strategies bucket br0.edge u hun]
    rw [List.map_cons] at hnd
    have hfresh : ∀ br' ∈ rest, getA [(br0.edge, (⟨u, 0⟩ : Decision))] br'.edge = none := by
      intro br' hbr'
      have hne' : br'.edge ≠ br0.edge := by
        intro hcontra
        exact (List.nodup_cons.mp hnd).1 (hcontra ▸ List.mem_map_of_mem Branch.edge hbr')
      rw [getA, if_neg (fun hh => hne' hh.symm)]
      rfl
    rw [witnessFold bucket u rest p.strategies _ hun hfresh (List.nodup_cons.mp hnd).2]
    rw [List.map_cons]
    rfl
  set strategy := children.map (fun br => (br.edge, (⟨u, 0⟩ : Decision))) with hstrategy
  have hn0 : (children.length : ℚ) ≠ 0 :=
    Nat.cast_ne_zero.mpr (by rw [hchildren]; simp)
  have hgets : getA (p.strategies ++ [(bucket, strategy)]) bucket = some strategy :=
    getA_append_single_self _ _ _ hun
  have hsum : (strategy.map (fun kv => kv.2.policy)).sum = 1 := by
    rw [hstrategy, List.map_map]
    have hcomp : ((fun kv : Edge × Decision => kv.2.policy) ∘ fun br : Branch =>
        (br.edge, (⟨u, 0⟩ : Decision))) = fun _ => u := rfl
    rw [hcomp, sum_map_const_rat, hu]
    field_simp
  have hpol : ∀ br ∈ children,
      policyGet ⟨p.iterations, p.strategies ++ [(bucket, strategy)]⟩ bucket br.edge =
        some u := by
    intro br hbr
    have hget : getA strategy br.edge = some ⟨u, 0⟩ := getA_map_edge_const children _ br hbr
    show (getA (p.strategies ++ [(bucket, strategy)]) bucket).bind (fun st =>
      (getA st br.edge).map (fun dec =>
        dec.policy / (st.map (fun kv => kv.2.policy)).sum)) = some u
    rw [hgets, Option.some_bind, hget, Option.map_some', hsum]
    show some (u / 1) = some u
    rw [div_one]
  refine ⟨⟨p.iterations, p.strategies ++ [(bucket, strategy)]⟩, by rw [hwit, hfold], hpol, ?_⟩
  refine ⟨strategy, hgets, ?_⟩
  have hpoint : ∀ e ∈ strategy.map Prod.fst,
      (policyGet ⟨p.iterations, p.strategies ++ [(bucket, strategy)]⟩ bucket e).getD 0 = u := by
    intro e he
    rw [hstrategy, List.map_map] at he
    obtain ⟨br, hbr, hbe⟩ := List.mem_map.mp he
    rw [← hbe]
    show (policyGet _ bucket br.edge).getD 0 = u
    rw [hpol br hbr]
    rfl
  rw [List.map_congr_left hpoint, sum_map_const_rat]
  have hlen : (strategy.map Prod.fst).length = children.length := by
    rw [hstrategy, List.map_map, List.length_map]
  rw [hlen, hu]
  field_simp

/-- Witness for C7 at a concrete unseen bucket with two child branches. -/
theorem witness_uniform_policy_witness :
    getA (Profile.mk 0 []).strategies ((0, 0, 0) : Bucket) = none ∧
      ([(0, Edge.check, 0), (0, Edge.fold, 0)] : List Branch) ≠ [] ∧
      (([(0, Edge.check, 0), (0, Edge.fold, 0)] : List Branch).map Branch.edge).Nodup ∧
      ∃ p', witness (Profile.mk 0 []) ((0, 0, 0) : Bucket)
          [(0, Edge.check, 0), (0, Edge.fold, 0)] = some p' ∧
        (∀ br ∈ ([(0, Edge.check, 0), (0, Edge.fold, 0)] : List Branch),
          policyGet p' ((0, 0, 0) : Bucket) br.edge =
            some (1 / ((([(0, Edge.check, 0), (0, Edge.fold, 0)] : List Branch).length : ℚ)))) ∧
        ∃ strategy, getA p'.strategies ((0, 0, 0) : Bucket) = some strategy ∧
          ((strategy.map Prod.fst).map
            (fun e => (policyGet p' ((0, 0, 0) : Bucket) e).getD 0)).sum = 1 :=
  ⟨rfl, List.cons_ne_nil _ _, by decide,
    witness_uniform_policy (Profile.mk 0 []) ((0, 0, 0) : Bucket)
      [(0, Edge.check, 0), (0, Edge.fold, 0)] rfl (List.cons_ne_nil _ _) (by decide)⟩

lemma discountRegret_mem (powf : ℚ → ℚ → ℚ)
    (hpow : ∀ x y : ℚ, 0 ≤ x → 0 ≤ powf x y) (t : ℕ) (r : ℚ) :
    0 ≤ discountRegret powf t r ∧ discountRegret powf t r ≤ 1 := by
  have hx : (0 : ℚ) ≤ (t : ℚ) / (DCFR_PERIOD : ℚ) := by positivity
  rw [discountRegret]
  split_ifs with h1 h2 h3
  · exact ⟨zero_le_one, le_refl 1⟩
  · have hp := hpow ((t : ℚ) / (DCFR_PERIOD : ℚ)) (3 / 2) hx
    constructor
    · apply div_nonneg hp
      linarith
    · rw [div_le_one (by linarith)]
      linarith
  · have hp := hpow ((t : ℚ) / (DCFR_PERIOD : ℚ)) (1 / 2) hx
    constructor
    · apply div_nonneg hp
      linarith
    · rw [div_le_one (by linarith)]
      linarith
  · exact ⟨zero_le_one, le_refl 1⟩

lemma regretUpdateInner_spec (powf : ℚ → ℚ → ℚ)
    (hpow : ∀ x y : ℚ, 0 ≤ x → 0 ≤ powf x y) (t : ℕ) (phase : Phase) :
    ∀ (regrets : List (Edge × ℚ)) (strategy strategy' : List (Edge × Decision)),
      regretUpdateInner powf t phase regrets strategy = some strategy' →
      (regrets.map Prod.fst).Nodup →
      ∀ e dec', getA strategy' e = some dec' →
        ∃ dec, getA strategy e = some dec ∧
          (dec' = dec ∨
            ∃ Δ d, (e, Δ) ∈ regrets ∧ 0 ≤ d ∧ d ≤ 1 ∧
              dec'.policy = dec.policy ∧ dec'.regret = dec.regret * d + Δ) := by
  intro regrets
  induction regrets with
  | nil =>
    intro strategy strategy' hup hnd e dec' hget
    simp only [regretUpdateInner] at hup
    obtain rfl := Option.some.inj hup
    exact ⟨dec', hget, Or.inl rfl⟩
  | cons hd rest ih =>
    intro strategy strategy' hup hnd e dec' hget
    obtain ⟨action, Δ⟩ := hd
    simp only [regretUpdateInner] at hup
    cases hdec : getA strategy action with
    | none =>
      rw [hdec, Option.none_bind] at hup
      cases hup
    | some dec₀ =>
      rw [hdec, Option.some_bind] at hup
      set d : ℚ := regretDiscount powf t phase Δ with hdd
      have hd01 : 0 ≤ d ∧ d ≤ 1 := by
        rw [hdd]
        cases phase
        · exact discountRegret_mem powf hpow t Δ
        · exact ⟨zero_le_one, le_refl 1⟩
        · exact ⟨zero_le_one, le_refl 1⟩
      rw [List.map_cons, List.nodup_cons] at hnd
      have hrec := ih (setA strategy action (fun dc => ⟨dc.policy, dc.regret * d + Δ⟩))
        strategy' hup hnd.2 e dec' hget
      obtain ⟨dec₁, hdec₁, hbranch⟩ := hrec
      by_cases he : e = action
      · subst he
        have hset : getA (setA strategy e (fun dc => ⟨dc.policy, dc.regret * d + Δ⟩)) e =
            some ⟨dec₀.policy, dec₀.regret * d + Δ⟩ := getA_setA_self _ _ _ _ hdec
        rw [hset] at hdec₁
        have hdec₁' : dec₁ = ⟨dec₀.policy, dec₀.regret * d + Δ⟩ := Option.some.inj hdec₁.symm
        rcases hbranch with hsame | ⟨Δ', d', hmem', _⟩
        · refine ⟨dec₀, hdec, Or.inr ⟨Δ, d, List.mem_cons_self _ _, hd01.1, hd01.2, ?_, ?_⟩⟩
          · rw [hsame, hdec₁']
          · rw [hsame, hdec₁']
        · exact absurd (List.mem_map_of_mem Prod.fst hmem') hnd.1
      · have hset : getA (setA strategy action (fun dc => ⟨dc.policy, dc.regret * d + Δ⟩)) e =
            getA strategy e := getA_setA_ne _ _ _ _ he
        rw [hset] at hdec₁
        rcases hbranch with hsame | ⟨Δ', d', hmem', hd0', hd1', hpol', hreg'⟩
        · exact ⟨dec₁, hdec₁, Or.inl hsame⟩
        · exact ⟨dec₁, hdec₁,
            Or.inr ⟨Δ', d', List.mem_cons_of_mem _ hmem', hd0', hd1', hpol', hreg'⟩⟩

/-- C2 (amended): after `Profile::regret_update` on a witnessed bucket with a
regret-vector whose entries lie in `[REGRET_MIN, REGRET_MAX]`, every stored
regret is either untouched or equals `d·old + Δ` with `d ∈ [0, 1]` the DCFR
discount and `Δ` the clamped vector entry; hence it lies in
`[min(old, 0) + REGRET_MIN, max(old, 0) + REGRET_MAX]`. The stored cumulative
regret is NOT re-clamped to `[REGRET_MIN, REGRET_MAX]` and can leave that
interval. (Finiteness holds trivially in this exact-rational model; the
clamping of the regret vector itself happens in `regret_vector`, not here.) -/
theorem regret_update_bounded (powf : ℚ → ℚ → ℚ)
    (hpow : ∀ x y : ℚ, 0 ≤ x → 0 ≤ powf x y)
    (p : Profile) (b : Bucket) (regrets : List (Edge × ℚ)) (p' : Profile)
    (hup : regretUpdate powf p b regrets = some p')
    (hnd : (regrets.map Prod.fst).Nodup)
    (hin : ∀ er ∈ regrets, REGRET_MIN ≤ er.2 ∧ er.2 ≤ REGRET_MAX) :
    ∀ b' strategy', getA p'.strategies b' = some strategy' →
      ∀ e dec', getA strategy' e = some dec' →
        ∃ strategy dec, getA p.strategies b' = some strategy ∧ getA strategy e = some dec ∧
          (dec'.regret = dec.regret ∨
            (min dec.regret 0 + REGRET_MIN ≤ dec'.regret ∧
              dec'.regret ≤ max dec.regret 0 + REGRET_MAX)) := by
  rw [regretUpdate] at hup
  cases hb : getA p.strategies b with
  | none =>
    rw [hb] at hup
    cases hup
  | some strategy₀ =>
    rw [hb] at hup
    obtain ⟨inner', hinner', hp'⟩ := Option.map_eq_some'.mp hup
    intro b' strategy' hstrat' e dec' hget'
    by_cases hbb : b' = b
    · subst hbb
      have hsetb : getA p'.strategies b' = some inner' := by
        rw [← hp']
        exact getA_setA_self _ _ _ _ hb
      rw [hsetb] at hstrat'
      have hstrat'' : strategy' = inner' := Option.some.inj hstrat'.symm
      subst hstrat''
      obtain ⟨dec, hdec, hbranch⟩ :=
        regretUpdateInner_spec powf hpow p.iterations (phaseOfEpochs p.iterations)
          regrets strategy₀ strategy' hinner' hnd e dec' hget'
      refine ⟨strategy₀, dec, hb, hdec, ?_⟩
      rcases hbranch with hsame | ⟨Δ, d, hmem, hd0, hd1, _, hreg⟩
      · exact Or.inl (by rw [hsame])
      · right
        have hΔ := hin (e, Δ) hmem
        have hmul_lo : min dec.regret 0 ≤ dec.regret * d := by
          rcases le_or_lt 0 dec.regret with hr | hr
          · have : 0 ≤ dec.regret * d := mul_nonneg hr hd0
            have hm : min dec.regret 0 ≤ 0 := min_le_right _ _
            linarith
          · have : dec.regret * 1 ≤ dec.regret * d :=
              mul_le_mul_of_nonpos_left hd1 (le_of_lt hr)
            have hm : min dec.regret 0 ≤ dec.regret := min_le_left _ _
            linarith
        have hmul_hi : dec.regret * d ≤ max dec.regret 0 := by
          rcases le_or_lt 0 dec.regret with hr | hr
          · have : dec.regret * d ≤ dec.regret * 1 := mul_le_mul_of_nonneg_left hd1 hr
            have hm : dec.regret ≤ max dec.regret 0 := le_max_left _ _
            linarith
          · have : dec.regret * d ≤ 0 := mul_nonpos_of_nonpos_of_nonneg (le_of_lt hr) hd0
            have hm : (0 : ℚ) ≤ max dec.regret 0 := le_max_right _ _
            linarith
        rw [hreg]
        constructor
        · linarith [hΔ.1]
        · linarith [hΔ.2]
    · have hsetb : getA p'.strategies b' = getA p.strategies b' := by
        rw [← hp']
        exact getA_setA_ne _ _ _ _ hbb
      rw [hsetb] at hstrat'
      exact ⟨strategy', dec', hstrat', hget', Or.inl rfl⟩

/-- The profile state of the C2 counterexample: one witnessed bucket whose
stored regret already sits at `REGRET_MAX` (a state in `[REGRET_MIN,
REGRET_MAX]` and reachable by a previous in-range update from 0), with the
epoch counter inside the Explore phase, where the DCFR discount is exactly 1. -/
def cexProfileC2 : Profile :=
  ⟨CFR_DISCOUNT_PHASE, [((0, 0, 0), [(Edge.check, ⟨1, REGRET_MAX⟩)])]⟩

/-- The claim C2 as stated, refuted at an explicit input: updating the
witnessed bucket with the in-range regret vector `[(Check, REGRET_MAX)]`
leaves a stored regret of `2 · REGRET_MAX = 600000 > REGRET_MAX`, because
`regret_update` adds the new regret to the discounted cumulative regret
without clamping the sum. -/
theorem regret_update_claim_fails :
    (REGRET_MIN ≤ REGRET_MAX ∧ REGRET_MAX ≤ REGRET_MAX) ∧
      ((regretUpdate (fun _ _ => 0) cexProfileC2 ((0, 0, 0) : Bucket)
            [(Edge.check, REGRET_MAX)]).bind
          (fun p' => (getA p'.strategies ((0, 0, 0) : Bucket)).bind
            (fun st => (getA st Edge.check).map Decision.regret))) = some 600000 ∧
      ¬((600000 : ℚ) ≤ REGRET_MAX) := by
  refine ⟨by norm_num [REGRET_MIN, REGRET_MAX], ?_, by norm_num [REGRET_MAX]⟩
  norm_num [regretUpdate, cexProfileC2, getA, setA, phaseOfEpochs, CFR_DISCOUNT_PHASE,
    CFR_PRUNNING_PHASE, regretUpdateInner, regretDiscount, REGRET_MAX]

/-- Witness for C2's amended theorem at a concrete profile and regret vector. -/
theorem regret_update_bounded_witness :
    (regretUpdate (fun _ _ => 0) (Profile.mk 0 [((0, 0, 0), [(Edge.check, ⟨1, 0⟩)])])
        ((0, 0, 0) : Bucket) [(Edge.check, 5)] =
      some (Profile.mk 0 [((0, 0, 0), [(Edge.check, ⟨1, 5⟩)])])) ∧
      (([(Edge.check, (5 : ℚ))].map Prod.fst).Nodup) ∧
      (REGRET_MIN ≤ (5 : ℚ) ∧ (5 : ℚ) ≤ REGRET_MAX) ∧
      (∀ b' strategy',
        getA (Profile.mk 0 [(((0, 0, 0) : Bucket), [(Edge.check, (⟨1, 5⟩ : Decision))])]).strategies
            b' = some strategy' →
        ∀ e dec', getA strategy' e = some dec' →
          ∃ strategy dec,
            getA (Profile.mk 0 [(((0, 0, 0) : Bucket),
                [(Edge.check, (⟨1, 0⟩ : Decision))])]).strategies b' = some strategy ∧
              getA strategy e = some dec ∧
              (dec'.regret = dec.regret ∨
                (min dec.regret 0 + REGRET_MIN ≤ dec'.regret ∧
                  dec'.regret ≤ max dec.regret 0 + REGRET_MAX))) :=
  ⟨by norm_num [regretUpdate, getA, setA, phaseOfEpochs, CFR_DISCOUNT_PHASE,
      CFR_PRUNNING_PHASE, regretUpdateInner, regretDiscount, discountRegret, DCFR_PERIOD],
    by decide, by norm_num [REGRET_MIN, REGRET_MAX],
    regret_update_bounded (fun _ _ => 0) (fun x y hx => le_refl 0)
      (Profile.mk 0 [((0, 0, 0), [(Edge.check, ⟨1, 0⟩)])]) ((0, 0, 0) : Bucket)
      [(Edge.check, 5)] (Profile.mk 0 [((0, 0, 0), [(Edge.check, ⟨1, 5⟩)])])
      (by norm_num [regretUpdate, getA, setA, phaseOfEpochs, CFR_DISCOUNT_PHASE,
        CFR_PRUNNING_PHASE, regretUpdateInner, regretDiscount, discountRegret, DCFR_PERIOD])
      (by decide) (by norm_num [REGRET_MIN, REGRET_MAX])⟩

/- ========== Lloyd iteration of Layer::cluster (src/src/clustering/layer.rs) ========== -/

/-- Modelled from the spec: `Histogram` (clustering/histogram.rs is not among
the sources) is a mapping from bucket id to non-negative weight — a multiset
of bins; `absorb` is pointwise addition, `clear` empties it. -/
abbrev Histogram : Type := Multiset ℕ

/-- The nearest-centroid scan of `Layer::cluster` (layer.rs): iterate the
`kmeans` map in order, keep the centroid whose `.0` histogram (the mean) has
strictly smaller EMD; the initial `nearests = f32::MAX` state is `none`, and
the initial `neighbor = Abstraction::default()` is id 0. -/
def nearestCentroid (emd : Histogram → Histogram → ℚ)
    (kmeans : List (ℕ × (Histogram × Histogram))) (data : Histogram) : ℕ :=
  ((kmeans.foldl
      (fun (acc : Option (ℚ × ℕ)) kv =>
        match acc with
        | none => some (emd data kv.2.1, kv.1)
        | some (best, id) =>
          if emd data kv.2.1 < best then some (emd data kv.2.1, kv.1)
          else some (best, id))
      none).map Prod.snd).getD 0

/-- The assignment loop of `Layer::cluster` (layer.rs), exactly as the code
does it: for each observation, find the nearest centroid over the CURRENT
`.0` histograms (which therefore drift as earlier observations are absorbed),
absorb the observation's histogram into that centroid's `.0` — the mean
itself, not the `.1` accumulator — and record the assignment in the
observation's abstraction (`std::mem::swap(last, neighbor)`). -/
def assignAll (emd : Histogram → Histogram → ℚ) :
    List (Histogram × ℕ) → List (ℕ × (Histogram × Histogram)) →
      List (Histogram × ℕ) × List (ℕ × (Histogram × Histogram))
  | [], kmeans => ([], kmeans)
  | (data, _) :: rest, kmeans =>
    let neighbor := nearestCentroid emd kmeans data
    let kmeans' := setA kmeans neighbor (fun p => (p.1 + data, p.2))
    let out := assignAll emd rest kmeans'
    ((data, neighbor) :: out.1, out.2)

/-- The end-of-iteration swap of `Layer::cluster` (layer.rs): `old.clear();
std::mem::swap(old, new)` leaves `(old, new) = (previous new, empty)`. -/
def swapPhase (kmeans : List (ℕ × (Histogram × Histogram))) :
    List (ℕ × (Histogram × Histogram)) :=
  kmeans.map (fun kv => (kv.1, (kv.2.2, 0)))

/-- One Lloyd iteration of `Layer::cluster` (layer.rs), as coded. -/
def clusterIteration (emd : Histogram → Histogram → ℚ) (points : List (Histogram × ℕ))
    (kmeans : List (ℕ × (Histogram × Histogram))) :
    List (Histogram × ℕ) × List (ℕ × (Histogram × Histogram)) :=
  let out := assignAll emd points kmeans
  (out.1, swapPhase out.2)

/-- One Lloyd iteration as claim C4 states it: nearest centroids are found
over the unchanging current means, each observation's histogram is
accumulated into the NEXT-mean accumulator (`.1`), after all observations the
accumulators become the new means, and a centroid to which no observation was
assigned retains its previous mean. -/
def lloydIterationSpec (emd : Histogram → Histogram → ℚ)
    (points : List (Histogram × ℕ)) (kmeans : List (ℕ × (Histogram × Histogram))) :
    List (Histogram × ℕ) × List (ℕ × (Histogram × Histogram)) :=
  let points' := points.map (fun pt => (pt.1, nearestCentroid emd kmeans pt.1))
  let kmeans' := points'.foldl
    (fun km pt => setA km pt.2 (fun p => (p.1, p.2 + pt.1))) kmeans
  let assigned := points'.map Prod.snd
  (points',
    kmeans'.map (fun kv => (kv.1, (if kv.1 ∈ assigned then kv.2.2 else kv.2.1, 0))))

lemma assignAll_discards (emd : Histogram → Histogram → ℚ) (points : List (Histogram × ℕ))
    (kmeans : List (ℕ × (Histogram × Histogram))) :
    (assignAll emd points kmeans).2.map (fun kv => (kv.1, kv.2.2)) =
      kmeans.map (fun kv => (kv.1, kv.2.2)) := by
  induction points generalizing kmeans with
  | nil => rfl
  | cons pt rest ih =>
    obtain ⟨data, last⟩ := pt
    rw [assignAll]
    rw [ih]
    generalize nearestCentroid emd kmeans data = neighbor
    induction kmeans with
    | nil => rfl
    | cons kv km ihk =>
      rw [setA]
      by_cases hk : kv.1 = neighbor
      · rw [if_pos hk, List.map_cons, List.map_cons, hk]
      · rw [if_neg hk, List.map_cons, List.map_cons, ihk]

/-- C4 (the code, evaluated): every Lloyd iteration of `Layer::cluster`
replaces each centroid's mean by its untouched `.1` accumulator — the
`absorb` went into the `.0` mean that was then cleared — so all accumulated
data is discarded; on the explicit failing input of one centroid (id 7, mean
{5}) and one observation (histogram {3}), the new mean is the empty
histogram, while the iteration the claim describes yields mean {3}; neither
the accumulated nor the previous mean is retained. -/
theorem layer_cluster_discards_absorbed_data :
    (∀ (emd : Histogram → Histogram → ℚ) (points : List (Histogram × ℕ))
        (kmeans : List (ℕ × (Histogram × Histogram))),
      (clusterIteration emd points kmeans).2 = kmeans.map (fun kv => (kv.1, (kv.2.2, 0)))) ∧
      (clusterIteration (fun _ _ => 0) [({3}, 99)] [(7, ({5}, 0))]).2 = [(7, (0, 0))] ∧
      (lloydIterationSpec (fun _ _ => 0) [({3}, 99)] [(7, ({5}, 0))]).2 = [(7, ({3}, 0))] ∧
      ((0 : Histogram) ≠ {3} ∧ (0 : Histogram) ≠ {5}) := by
  refine ⟨?_, ?_, ?_, by decide, by decide⟩
  · intro emd points kmeans
    rw [clusterIteration]
    have h := assignAll_discards emd points kmeans
    show swapPhase (assignAll emd points kmeans).2 = _
    rw [swapPhase]
    have hmap : ∀ (l₁ l₂ : List (ℕ × (Histogram × Histogram))),
        l₁.map (fun kv => (kv.1, kv.2.2)) = l₂.map (fun kv => (kv.1, kv.2.2)) →
          l₁.map (fun kv => (kv.1, (kv.2.2, (0 : Histogram)))) =
            l₂.map (fun kv => (kv.1, (kv.2.2, (0 : Histogram)))) := by
      intro l₁ l₂ hl
      have h1 : ∀ (l : List (ℕ × (Histogram × Histogram))),
          l.map (fun kv => (kv.1, (kv.2.2, (0 : Histogram)))) =
            (l.map (fun kv => (kv.1, kv.2.2))).map (fun kv => (kv.1, (kv.2, 0))) := by
        intro l
        rw [List.map_map]
        rfl
      rw [h1, h1, hl]
    exact hmap _ _ h
  · decide
  · decide

/- ============== Evaluator (src/src/cards/evaluator.rs) ============== -/

/-- Modelled from the spec: the suit-0 bit plane of the 52-card bitboard
(cards/hand.rs and cards/suit.rs are not among the sources): "Suit planes are
extracted by masking `0x1111...` shifted by suit" (spec §4.A), one bit per
rank nibble. -/
def SUITS0 : ℕ := 0x1111111111111

/-- `u64::from(suit)`: the suit's bit plane. -/
def suitMask (s : ℕ) : ℕ := SUITS0 <<< s

/-- `Hand::of(&suit)`: the cards of one suit (spec §4.A). -/
def handOf (h s : ℕ) : ℕ := h &&& suitMask s

/-- `count_ones` of a 64-bit value. -/
def popc (h : ℕ) : ℕ := ((Finset.range 64).filter (fun i => h.testBit i)).card

/-- `u16::from(Hand)`: the rank-collapsed 13-bit mask, bit `r` set iff any
suit holds rank `r` (modelled from the spec §3: "a 13-bit rank-mask ORing
across suits"; cards/hand.rs is not among the sources). -/
def rankMask (h : ℕ) : ℕ :=
  (List.range 13).foldl
    (fun a r => if h &&& (0xF <<< (4 * r)) ≠ 0 then a ||| (1 <<< r) else a) 0

/-- The number of cards of rank `r` (`popcount` of the rank's nibble). -/
def nibbleCount (h r : ℕ) : ℕ := popc (h &&& (0xF <<< (4 * r)))

/-- `Evaluator::find_suit_of_flush` (evaluator.rs): the first suit whose
plane holds at least five cards. -/
def findSuitOfFlush (h : ℕ) : Option ℕ :=
  (List.range 4).find? (fun s => decide (5 ≤ popc (handOf h s)))

/-- `Evaluator::find_rank_of_n_oak_under` (evaluator.rs): mask the hand to
ranks strictly below the ceiling (13 when absent), then scan nibbles from the
highest rank down for the first with at least `oak` cards. -/
def findRankOfNOakUnder (h oak ceil : ℕ) : Option ℕ :=
  ((List.range ceil).reverse).find?
    (fun r => decide (oak ≤ nibbleCount (h &&& ((1 <<< (4 * ceil)) - 1)) r))

/-- `Evaluator::find_rank_of_n_oak` (evaluator.rs): no ceiling. -/
def findRankOfNOak (h oak : ℕ) : Option ℕ := findRankOfNOakUnder h oak 13

/-- Full-deck `WHEEL` rank mask (evaluator.rs): `A-2-3-4-5`. -/
def WHEEL : ℕ := 0b1000000001111

/-- Full-deck `LOWEST_STRAIGHT_RANK` (evaluator.rs): `Rank::Five` = 3. -/
def LOWEST_STRAIGHT_RANK : ℕ := 3

/-- One `bits &= bits << 1` step of the straight detector (evaluator.rs). -/
def straightStep (b : ℕ) : ℕ := b &&& (b <<< 1)

/-- `Evaluator::find_rank_of_straight` on a 13-bit rank mask (evaluator.rs):
four `bits &= bits << 1` steps detect runs of five; `Rank::from(u16)` picks
the top set bit (modelled from the spec §4.B: "pick the top"; cards/rank.rs
is not among the sources), with the wheel checked separately. -/
def findRankOfStraightBits (ranks : ℕ) : Option ℕ :=
  let bits := straightStep (straightStep (straightStep (straightStep ranks)))
  if bits > 0 then some (Nat.log2 bits)
  else if WHEEL = WHEEL &&& ranks then some LOWEST_STRAIGHT_RANK
  else none

/-- `Evaluator::find_rank_of_straight` applied to a whole hand. -/
def findRankOfStraight (h : ℕ) : Option ℕ := findRankOfStraightBits (rankMask h)

/-- `Evaluator::find_rank_of_straight_flush` (evaluator.rs). -/
def findRankOfStraightFlush (h s : ℕ) : Option ℕ := findRankOfStraightBits (rankMask (handOf h s))

/-- `Ranking` (cards/ranking.rs, as used by evaluator.rs), rank payloads as
numbers 0–12 (Two = 0 … Ace = 12). -/
inductive Ranking : Type
  | highCard (r : ℕ) : Ranking
  | onePair (r : ℕ) : Ranking
  | twoPair (hi lo : ℕ) : Ranking
  | threeOAK (r : ℕ) : Ranking
  | straight (r : ℕ) : Ranking
  | flush (r : ℕ) : Ranking
  | fullHouse (trips pair : ℕ) : Ranking
  | fourOAK (r : ℕ) : Ranking
  | straightFlush (r : ℕ) : Ranking
deriving DecidableEq

/-- `find_1_oak` (evaluator.rs). -/
def find1oak (h : ℕ) : Option Ranking := (findRankOfNOak h 1).map Ranking.highCard

/-- `find_2_oak` (evaluator.rs). -/
def find2oak (h : ℕ) : Option Ranking := (findRankOfNOak h 2).map Ranking.onePair

/-- `find_3_oak` (evaluator.rs). -/
def find3oak (h : ℕ) : Option Ranking := (findRankOfNOak h 3).map Ranking.threeOAK

/-- `find_4_oak` (evaluator.rs). -/
def find4oak (h : ℕ) : Option Ranking := (findRankOfNOak h 4).map Ranking.fourOAK

/-- `find_2_oak_2_oak` (evaluator.rs): a second pair strictly below the
first, falling back to `OnePair` when there is none. -/
def find2oak2oak (h : ℕ) : Option Ranking :=
  (findRankOfNOak h 2).bind (fun hi =>
    ((findRankOfNOakUnder h 2 hi).map (fun lo => Ranking.twoPair hi lo)).orElse
      (fun _ => some (Ranking.onePair hi)))

/-- `find_3_oak_2_oak` (evaluator.rs): trips plus a pair strictly below. -/
def find3oak2oak (h : ℕ) : Option Ranking :=
  (findRankOfNOak h 3).bind (fun trips =>
    (findRankOfNOakUnder h 2 trips).map (fun pairs => Ranking.fullHouse trips pairs))

/-- `find_straight` (evaluator.rs). -/
def findStraight (h : ℕ) : Option Ranking := (findRankOfStraight h).map Ranking.straight

/-- `find_flush` (evaluator.rs): straight flush in the flush suit's plane,
else a plain flush whose payload is the top rank of the plane. -/
def findFlush (h : ℕ) : Option Ranking :=
  (findSuitOfFlush h).bind (fun suit =>
    ((findRankOfStraightFlush h suit).map Ranking.straightFlush).orElse
      (fun _ => some (Ranking.flush (Nat.log2 (rankMask (handOf h suit))))))

/-- `Evaluator::find_ranking` (evaluator.rs): the code's resolution chain —
note it tries the flush family FIRST, before quads and full house. -/
def findRanking (h : ℕ) : Option Ranking :=
  ((((((((findFlush h).orElse (fun _ => find4oak h)).orElse
    (fun _ => find3oak2oak h)).orElse (fun _ => findStraight h)).orElse
    (fun _ => find3oak h)).orElse (fun _ => find2oak2oak h)).orElse
    (fun _ => find2oak h)).orElse (fun _ => find1oak h))

/-- The category resolution order exactly as the claim (and spec §4.B.5)
states it: StraightFlush, Quads, FullHouse, Flush, Straight, Trips, TwoPair,
OnePair, HighCard — each category detected by the detectors of §4.B
(full house and two pair via `find_n_oak_under` with the first match as
ceiling). -/
def findRankingSpec (h : ℕ) : Option Ranking :=
  (((((((((findSuitOfFlush h).bind (fun s =>
      (findRankOfStraightFlush h s).map Ranking.straightFlush)).orElse
    (fun _ => find4oak h)).orElse (fun _ => find3oak2oak h)).orElse
    (fun _ => (findSuitOfFlush h).map (fun s =>
      Ranking.flush (Nat.log2 (rankMask (handOf h s)))))).orElse
    (fun _ => findStraight h)).orElse (fun _ => find3oak h)).orElse
    (fun _ => (findRankOfNOak h 2).bind (fun hi =>
      (findRankOfNOakUnder h 2 hi).map (fun lo => Ranking.twoPair hi lo)))).orElse
    (fun _ => find2oak h)).orElse (fun _ => find1oak h)

set_option maxHeartbeats 1000000

lemma suitMask_testBit :
    ∀ s ∈ Finset.range 4, ∀ i ∈ Finset.range 64,
      ((suitMask s).testBit i = true ↔ i < 52 ∧ i % 4 = s) := by decide

lemma nibMask_testBit :
    ∀ r ∈ Finset.range 13, ∀ i ∈ Finset.range 64,
      (((0xF <<< (4 * r)) : ℕ).testBit i = true ↔ i / 4 = r) := by decide

lemma popc_land (h m : ℕ) :
    popc (h &&& m) =
      ((Finset.range 64).filter (fun i => h.testBit i ∧ m.testBit i)).card := by
  rw [popc]
  congr 1
  apply Finset.filter_congr
  intro i _
  rw [Nat.testBit_land]
  simp [Bool.and_eq_true]

lemma nibbleCount_land_le (h M r : ℕ) : nibbleCount (h &&& M) r ≤ nibbleCount h r := by
  rw [nibbleCount, nibbleCount, popc_land, popc_land]
  apply Finset.card_le_card
  intro i hi
  rw [Finset.mem_filter] at hi ⊢
  refine ⟨hi.1, ?_, hi.2.2⟩
  have h2 := hi.2.1
  rw [Nat.testBit_land] at h2
  simp only [Bool.and_eq_true] at h2
  exact h2.1

lemma flush_no_quads (h s r : ℕ) (hs : s < 4) (hr : r < 13) (hcnt : popc h ≤ 7)
    (hflush : 5 ≤ popc (handOf h s)) : nibbleCount h r ≤ 3 := by
  by_contra hq
  push_neg at hq
  set A := (Finset.range 64).filter
    (fun i => h.testBit i ∧ (suitMask s).testBit i) with hA
  set B := (Finset.range 64).filter
    (fun i => h.testBit i ∧ ((0xF <<< (4 * r)) : ℕ).testBit i) with hB
  have hcardA : 5 ≤ A.card := by
    rw [hA, ← popc_land]
    exact hflush
  have hcardB : 4 ≤ B.card := by
    rw [hB, ← popc_land]
    exact hq
  have hinter : A ∩ B ⊆ {4 * r + s} := by
    intro i hi
    rw [Finset.mem_inter, hA, hB, Finset.mem_filter, Finset.mem_filter] at hi
    obtain ⟨⟨hir, _, hsu⟩, _, _, hni⟩ := hi
    have h1 := (suitMask_testBit s (Finset.mem_range.mpr hs) i hir).mp hsu
    have h2 := (nibMask_testBit r (Finset.mem_range.mpr hr) i hir).mp hni
    rw [Finset.mem_singleton]
    omega
  have hinterc : (A ∩ B).card ≤ 1 :=
    le_trans (Finset.card_le_card hinter) (by simp)
  have hunion : A ∪ B ⊆ (Finset.range 64).filter (fun i => h.testBit i) := by
    intro i hi
    rw [Finset.mem_union, hA, hB, Finset.mem_filter, Finset.mem_filter] at hi
    rw [Finset.mem_filter]
    rcases hi with ⟨h1, h2, _⟩ | ⟨h1, h2, _⟩ <;> exact ⟨h1, h2⟩
  have hunionc : (A ∪ B).card ≤ 7 := le_trans (Finset.card_le_card hunion) hcnt
  have := Finset.card_union_add_card_inter A B
  omega

lemma flush_no_fullhouse (h s a b : ℕ) (hs : s < 4) (ha : a < 13) (hb : b < 13)
    (hab : a ≠ b) (hcnt : popc h ≤ 7) (hflush : 5 ≤ popc (handOf h s))
    (h3 : 3 ≤ nibbleCount h a) : nibbleCount h b ≤ 1 := by
  by_contra hp
  push_neg at hp
  set A := (Finset.range 64).filter
    (fun i => h.testBit i ∧ (suitMask s).testBit i) with hA
  set B := (Finset.range 64).filter
    (fun i => h.testBit i ∧ ((0xF <<< (4 * a)) : ℕ).testBit i) with hB
  set C := (Finset.range 64).filter
    (fun i => h.testBit i ∧ ((0xF <<< (4 * b)) : ℕ).testBit i) with hC
  have hcardA : 5 ≤ A.card := by
    rw [hA, ← popc_land]
    exact hflush
  have hcardB : 3 ≤ B.card := by
    rw [hB, ← popc_land]
    exact h3
  have hcardC : 2 ≤ C.card := by
    rw [hC, ← popc_land]
    exact hp
  have hAB : (A ∩ B).card ≤ 1 := by
    refine le_trans (Finset.card_le_card (?_ : A ∩ B ⊆ {4 * a + s})) (by simp)
    intro i hi
    rw [Finset.mem_inter, hA, hB, Finset.mem_filter, Finset.mem_filter] at hi
    obtain ⟨⟨hir, _, hsu⟩, _, _, hni⟩ := hi
    have h1 := (suitMask_testBit s (Finset.mem_range.mpr hs) i hir).mp hsu
    have h2 := (nibMask_testBit a (Finset.mem_range.mpr ha) i hir).mp hni
    rw [Finset.mem_singleton]
    omega
  have hAC : (A ∩ C).card ≤ 1 := by
    refine le_trans (Finset.card_le_card (?_ : A ∩ C ⊆ {4 * b + s})) (by simp)
    intro i hi
    rw [Finset.mem_inter, hA, hC, Finset.mem_filter, Finset.mem_filter] at hi
    obtain ⟨⟨hir, _, hsu⟩, _, _, hni⟩ := hi
    have h1 := (suitMask_testBit s (Finset.mem_range.mpr hs) i hir).mp hsu
    have h2 := (nibMask_testBit b (Finset.mem_range.mpr hb) i hir).mp hni
    rw [Finset.mem_singleton]
    omega
  have hBC : (B ∩ C).card = 0 := by
    rw [Finset.card_eq_zero]
    rw [Finset.eq_empty_iff_forall_not_mem]
    intro i hi
    rw [Finset.mem_inter, hB, hC, Finset.mem_filter, Finset.mem_filter] at hi
    obtain ⟨⟨hir, _, hna⟩, _, _, hnb⟩ := hi
    have h1 := (nibMask_testBit a (Finset.mem_range.mpr ha) i hir).mp hna
    have h2 := (nibMask_testBit b (Finset.mem_range.mpr hb) i hir).mp hnb
    omega
  have hunion : A ∪ B ∪ C ⊆ (Finset.range 64).filter (fun i => h.testBit i) := by
    intro i hi
    rw [Finset.mem_union, Finset.mem_union, hA, hB, hC] at hi
    rw [Finset.mem_filter]
    rcases hi with (hi | hi) | hi <;>
      · rw [Finset.mem_filter] at hi
        exact ⟨hi.1, hi.2.1⟩
  have hunionc : (A ∪ B ∪ C).card ≤ 7 := le_trans (Finset.card_le_card hunion) hcnt
  have e1 := Finset.card_union_add_card_inter A B
  have e2 := Finset.card_union_add_card_inter (A ∪ B) C
  have e3 : ((A ∪ B) ∩ C).card ≤ (A ∩ C).card + (B ∩ C).card := by
    rw [Finset.union_inter_distrib_right]
    exact Finset.card_union_le _ _
  omega

lemma findSuitOfFlush_spec (h s : ℕ) (hs : findSuitOfFlush h = some s) :
    s < 4 ∧ 5 ≤ popc (handOf h s) := by
  constructor
  · have := List.mem_of_find?_eq_some hs
    exact List.mem_range.mp this
  · have := List.find?_some hs
    exact of_decide_eq_true this

lemma find4oak_none_of_flush (h s : ℕ) (hs : findSuitOfFlush h = some s)
    (hcnt : popc h ≤ 7) : find4oak h = none := by
  obtain ⟨hs4, hflush⟩ := findSuitOfFlush_spec h s hs
  rw [find4oak, findRankOfNOak, findRankOfNOakUnder]
  rw [List.find?_eq_none.mpr, Option.map_none']
  intro r hr
  rw [List.mem_reverse, List.mem_range] at hr
  rw [decide_eq_true_eq]
  push_neg
  have hle := nibbleCount_land_le h ((1 <<< (4 * 13)) - 1) r
  have hq := flush_no_quads h s r hs4 hr hcnt hflush
  omega

lemma find3oak2oak_none_of_flush (h s : ℕ) (hs : findSuitOfFlush h = some s)
    (hcnt : popc h ≤ 7) : find3oak2oak h = none := by
  obtain ⟨hs4, hflush⟩ := findSuitOfFlush_spec h s hs
  rw [find3oak2oak]
  cases h3 : findRankOfNOak h 3 with
  | none => rfl
  | some a =>
    rw [Option.some_bind]
    have ha13 : a < 13 := by
      have := List.mem_of_find?_eq_some h3
      rw [List.mem_reverse, List.mem_range] at this
      exact this
    have h3a : 3 ≤ nibbleCount h a := by
      have := List.find?_some h3
      rw [decide_eq_true_eq] at this
      exact le_trans this (nibbleCount_land_le _ _ _)
    rw [findRankOfNOakUnder, List.find?_eq_none.mpr, Option.map_none']
    intro b hb
    rw [List.mem_reverse, List.mem_range] at hb
    rw [decide_eq_true_eq]
    push_neg
    have hle := nibbleCount_land_le h ((1 <<< (4 * a)) - 1) b
    have hfh := flush_no_fullhouse h s a b hs4 ha13 (by omega) (by omega) hcnt hflush h3a
    omega

/-- C5: for every hand with 5 to 7 set bits, `find_ranking` returns exactly
what the claim's resolution order — StraightFlush, Quads, FullHouse, Flush,
Straight, Trips, TwoPair, OnePair, HighCard, first match wins — prescribes,
even though the code checks the flush family first: at most 7 cards cannot
hold both a flush and quads, nor both a flush and a full house (trips plus a
distinct lower pair), by counting. In particular a 7-card hand with a full
house and four cards of one suit is ranked FullHouse, and a hand with quads
is ranked FourOAK, never Flush. -/
theorem find_ranking_first_match (h : ℕ) (h5 : 5 ≤ popc h) (h7 : popc h ≤ 7) :
    findRanking h = findRankingSpec h := by
  rw [findRanking, findRankingSpec]
  cases hs : findSuitOfFlush h with
  | none =>
    simp only [findFlush, hs, Option.none_bind, Option.map_none', Option.none_orElse']
    cases h4 : find4oak h with
    | some v => simp only [Option.some_orElse']
    | none =>
      simp only [Option.none_orElse']
      cases h32 : find3oak2oak h with
      | some v => simp only [Option.some_orElse']
      | none =>
        simp only [Option.none_orElse']
        cases hst : findStraight h with
        | some v => simp only [Option.some_orElse']
        | none =>
          simp only [Option.none_orElse']
          cases h3 : find3oak h with
          | some v => simp only [Option.some_orElse']
          | none =>
            simp only [Option.none_orElse']
            rw [find2oak2oak]
            cases h2 : findRankOfNOak h 2 with
            | none =>
              simp only [Option.none_bind, Option.none_orElse', find2oak, h2,
                Option.map_none']
            | some hi =>
              simp only [Option.some_bind]
              cases hlo : findRankOfNOakUnder h 2 hi with
              | some lo =>
                simp only [Option.map_some', Option.some_orElse']
              | none =>
                simp only [Option.map_none', Option.none_orElse', Option.some_orElse',
                  find2oak, h2, Option.map_some']
  | some s =>
    have h4n := find4oak_none_of_flush h s hs h7
    have h32n := find3oak2oak_none_of_flush h s hs h7
    simp only [findFlush, hs, Option.some_bind]
    cases hsf : findRankOfStraightFlush h s with
    | some r =>
      simp only [Option.map_some', Option.some_orElse']
    | none =>
      simp only [Option.map_none', Option.map_some', Option.none_orElse', h4n, h32n,
        Option.some_orElse']

/-- Witness for C5 at the concrete 7-card hand Kh Ah Ad As Ks Qs Js (a full
house with four spades): both resolutions rank it FullHouse(Ace, King). -/
theorem find_ranking_first_match_witness :
    5 ≤ popc (2 ^ 45 + 2 ^ 49 + 2 ^ 50 + 2 ^ 48 + 2 ^ 44 + 2 ^ 40 + 2 ^ 36) ∧
      popc (2 ^ 45 + 2 ^ 49 + 2 ^ 50 + 2 ^ 48 + 2 ^ 44 + 2 ^ 40 + 2 ^ 36) ≤ 7 ∧
      findRanking (2 ^ 45 + 2 ^ 49 + 2 ^ 50 + 2 ^ 48 + 2 ^ 44 + 2 ^ 40 + 2 ^ 36) =
        findRankingSpec (2 ^ 45 + 2 ^ 49 + 2 ^ 50 + 2 ^ 48 + 2 ^ 44 + 2 ^ 40 + 2 ^ 36) ∧
      findRanking (2 ^ 45 + 2 ^ 49 + 2 ^ 50 + 2 ^ 48 + 2 ^ 44 + 2 ^ 40 + 2 ^ 36) =
        some (Ranking.fullHouse 12 11) :=
  ⟨by decide, by decide,
    find_ranking_first_match _ (by decide) (by decide), by decide⟩

/- ============== Kickers (src/src/cards/evaluator.rs) ============== -/

/-- Modelled from the spec: `u16::From<Rank>` (cards/rank.rs is not among the
sources). The spec's kicker step is "the hand's rank-collapsed mask AND-NOT
the ranks already consumed", and the code computes `u16::from(self.0) & mask`
with `mask` built by OR-ing the consumed ranks' images, so the conversion
must send a rank to the 13-bit complement of its bit — the unique image under
which the single-rank cases realize AND-NOT. -/
def u16OfRank (r : ℕ) : ℕ := 0x1FFF ^^^ (1 <<< r)

/-- `u16::trailing_zeros` on a 16-bit value (16 when the value is zero). -/
def tz16 (b : ℕ) : ℕ := (((List.range 16).find? (fun i => b.testBit i)).getD 16)

/-- The `while bits.count_ones() > n { bits &= !(1 << bits.trailing_zeros()) }`
loop of `Evaluator::find_kickers` (evaluator.rs); the fuel 16 covers every
16-bit value. -/
def clearLowLoop : ℕ → ℕ → ℕ → ℕ
  | 0, _, bits => bits
  | fuel + 1, n, bits =>
    if n < popc bits then
      clearLowLoop fuel n (bits &&& (0xFFFF ^^^ (1 <<< tz16 bits)))
    else bits

/-- `Evaluator::find_kickers` (evaluator.rs): the kicker count per ranking,
the mask OR-ed from the consumed ranks (`u16::from`), `bits = u16::from(hand)
& mask`, then clear the lowest set bit until the popcount is at most the
count; rankings with no kickers return the empty mask at once. -/
def findKickers (h : ℕ) (value : Ranking) : ℕ :=
  match value with
  | Ranking.fourOAK hi => clearLowLoop 16 1 (rankMask h &&& u16OfRank hi)
  | Ranking.twoPair hi lo => clearLowLoop 16 1 (rankMask h &&& (u16OfRank hi ||| u16OfRank lo))
  | Ranking.highCard hi => clearLowLoop 16 4 (rankMask h &&& u16OfRank hi)
  | Ranking.onePair hi => clearLowLoop 16 3 (rankMask h &&& u16OfRank hi)
  | Ranking.threeOAK hi => clearLowLoop 16 2 (rankMask h &&& u16OfRank hi)
  | _ => 0

/-- The kicker procedure exactly as claim C8 states it: the rank-collapsed
mask AND-NOT the consumed ranks, cleared from the lowest bit up until the
popcount matches the expected count `{HighCard: 4, OnePair: 3, Trips: 2,
Quads: 1, TwoPair: 1, else: 0}` (no kickers means the empty mask). -/
def specKickers (h : ℕ) (value : Ranking) : ℕ :=
  match value with
  | Ranking.fourOAK hi => clearLowLoop 16 1 (rankMask h &&& (0x1FFF ^^^ (1 <<< hi)))
  | Ranking.twoPair hi lo =>
    clearLowLoop 16 1 (rankMask h &&& (0x1FFF ^^^ ((1 <<< hi) ||| (1 <<< lo))))
  | Ranking.highCard hi => clearLowLoop 16 4 (rankMask h &&& (0x1FFF ^^^ (1 <<< hi)))
  | Ranking.onePair hi => clearLowLoop 16 3 (rankMask h &&& (0x1FFF ^^^ (1 <<< hi)))
  | Ranking.threeOAK hi => clearLowLoop 16 2 (rankMask h &&& (0x1FFF ^^^ (1 <<< hi)))
  | _ => 0

/-- The claim C8 as stated, refuted at the explicit hand As Ah Ks Kh Qs with
its ranking TwoPair(Ace, King): the code's mask is the OR of the two ranks'
images, which is the full 13-bit mask, so the loop clears from below and
returns the Ace bit (4096) — a consumed rank — while the claim's AND-NOT
procedure returns the Queen bit (1024). The ranking used is really this
hand's `find_ranking` result. -/
theorem find_kickers_claim_fails :
    findRanking (2 ^ 48 + 2 ^ 49 + 2 ^ 44 + 2 ^ 45 + 2 ^ 40) =
        some (Ranking.twoPair 12 11) ∧
      findKickers (2 ^ 48 + 2 ^ 49 + 2 ^ 44 + 2 ^ 45 + 2 ^ 40) (Ranking.twoPair 12 11) =
        4096 ∧
      specKickers (2 ^ 48 + 2 ^ 49 + 2 ^ 44 + 2 ^ 45 + 2 ^ 40) (Ranking.twoPair 12 11) =
        1024 ∧
      findKickers (2 ^ 48 + 2 ^ 49 + 2 ^ 44 + 2 ^ 45 + 2 ^ 40) (Ranking.twoPair 12 11) ≠
        specKickers (2 ^ 48 + 2 ^ 49 + 2 ^ 44 + 2 ^ 45 + 2 ^ 40) (Ranking.twoPair 12 11) := by
  refine ⟨by decide, by decide, by decide, by decide⟩

lemma popc_zero : popc 0 = 0 := by decide

lemma popc_le_16 (bits : ℕ) (hb : bits < 2 ^ 16) : popc bits ≤ 16 := by
  rw [popc]
  have hsub : (Finset.range 64).filter (fun i => bits.testBit i) ⊆ Finset.range 16 := by
    intro i hi
    rw [Finset.mem_filter] at hi
    rw [Finset.mem_range]
    by_contra hge
    have hlt : bits < 2 ^ i :=
      lt_of_lt_of_le hb (Nat.pow_le_pow_right (by norm_num) (by omega))
    have h2 := hi.2
    rw [Nat.testBit_eq_false_of_lt hlt] at h2
    cases h2
  exact le_trans (Finset.card_le_card hsub) (by simp)

lemma tz16_spec (bits : ℕ) (hne : bits ≠ 0) (hb : bits < 2 ^ 16) :
    bits.testBit (tz16 bits) = true ∧ tz16 bits < 16 := by
  cases hfind : (List.range 16).find? (fun i => bits.testBit i) with
  | none =>
    exfalso
    apply hne
    apply Nat.eq_of_testBit_eq
    intro i
    rw [Nat.zero_testBit]
    by_cases hi : i < 16
    · have hnone := List.find?_eq_none.mp hfind i (List.mem_range.mpr hi)
      cases hbit : bits.testBit i with
      | false => rfl
      | true => exact absurd hbit hnone
    · exact Nat.testBit_eq_false_of_lt
        (lt_of_lt_of_le hb (Nat.pow_le_pow_right (by norm_num) (by omega)))
  | some t =>
    rw [tz16, hfind]
    exact ⟨List.find?_some hfind, List.mem_range.mp (List.mem_of_find?_eq_some hfind)⟩

lemma hexFFFF_testBit (i : ℕ) : (0xFFFF : ℕ).testBit i = decide (i < 16) := by
  rw [show (0xFFFF : ℕ) = 2 ^ 16 - 1 by norm_num, Nat.testBit_two_pow_sub_one]

lemma clearLow_step (bits : ℕ) (hne : bits ≠ 0) (hb : bits < 2 ^ 16) :
    popc (bits &&& (0xFFFF ^^^ (1 <<< tz16 bits))) = popc bits - 1 ∧
      bits &&& (0xFFFF ^^^ (1 <<< tz16 bits)) < 2 ^ 16 := by
  obtain ⟨htb, ht16⟩ := tz16_spec bits hne hb
  constructor
  · rw [popc_land, popc]
    have hft : ((Finset.range 64).filter
          (fun i => bits.testBit i ∧ (0xFFFF ^^^ (1 <<< tz16 bits)).testBit i)) =
        ((Finset.range 64).filter (fun i => bits.testBit i)).erase (tz16 bits) := by
      ext i
      rw [Finset.mem_filter, Finset.mem_erase, Finset.mem_filter]
      constructor
      · rintro ⟨hir, hbi, hmi⟩
        refine ⟨?_, hir, hbi⟩
        intro hit
        subst hit
        rw [Nat.testBit_xor, hexFFFF_testBit, Nat.one_shiftLeft,
          Nat.testBit_two_pow_self] at hmi
        simp [ht16] at hmi
      · rintro ⟨hit, hir, hbi⟩
        refine ⟨hir, hbi, ?_⟩
        have hi16 : i < 16 := by
          by_contra hge
          have hlt : bits < 2 ^ i :=
            lt_of_lt_of_le hb (Nat.pow_le_pow_right (by norm_num) (by omega))
          rw [Nat.testBit_eq_false_of_lt hlt] at hbi
          cases hbi
        rw [Nat.testBit_xor, hexFFFF_testBit, Nat.one_shiftLeft,
          Nat.testBit_two_pow_of_ne (fun hh => hit hh.symm)]
        simp [hi16]
    have hmem : tz16 bits ∈ (Finset.range 64).filter (fun i => bits.testBit i) := by
      rw [Finset.mem_filter]
      exact ⟨Finset.mem_range.mpr (by omega), htb⟩
    rw [hft, Finset.card_erase_of_mem hmem]
  · exact lt_of_le_of_lt Nat.and_le_left hb

lemma clearLowLoop_popc :
    ∀ (fuel n bits : ℕ), bits < 2 ^ 16 → popc bits ≤ fuel + n →
      popc (clearLowLoop fuel n bits) = min n (popc bits) := by
  intro fuel
  induction fuel with
  | zero =>
    intro n bits hb hle
    rw [clearLowLoop]
    exact (min_eq_right (by omega)).symm
  | succ fuel ih =>
    intro n bits hb hle
    rw [clearLowLoop]
    by_cases hn : n < popc bits
    · rw [if_pos hn]
      have hne : bits ≠ 0 := by
        intro h0
        rw [h0, popc_zero] at hn
        omega
      obtain ⟨hstep, hb'⟩ := clearLow_step bits hne hb
      rw [ih _ _ hb' (by omega), hstep]
      omega
    · rw [if_neg hn]
      omega

lemma u16OfRank_or_full :
    ∀ hi ∈ Finset.range 13, ∀ lo ∈ Finset.range 13, hi ≠ lo →
      u16OfRank hi ||| u16OfRank lo = 0x1FFF := by decide

lemma rankMask_lt (h : ℕ) : rankMask h < 2 ^ 13 := by
  rw [rankMask]
  have hgen : ∀ (l : List ℕ) (acc : ℕ), acc < 2 ^ 13 → (∀ r ∈ l, r < 13) →
      (l.foldl (fun a r => if h &&& (0xF <<< (4 * r)) ≠ 0 then a ||| (1 <<< r) else a)
        acc) < 2 ^ 13 := by
    intro l
    induction l with
    | nil => intro acc hacc _; exact hacc
    | cons r l ih =>
      intro acc hacc hl
      rw [List.foldl_cons]
      apply ih
      · by_cases hc : h &&& (0xF <<< (4 * r)) ≠ 0
        · rw [if_pos hc]
          apply Nat.or_lt_two_pow hacc
          rw [Nat.one_shiftLeft]
          exact Nat.pow_lt_pow_right (by norm_num) (hl r (List.mem_cons_self _ _))
        · rw [if_neg hc]
          exact hacc
      · intro x hx
        exact hl x (List.mem_cons_of_mem _ hx)
  apply hgen
  · norm_num
  · intro r hr
    exact List.mem_range.mp hr

lemma land_mask13 (b : ℕ) (hb : b < 2 ^ 13) : b &&& 0x1FFF = b := by
  rw [show (0x1FFF : ℕ) = 2 ^ 13 - 1 by norm_num]
  apply Nat.eq_of_testBit_eq
  intro i
  rw [Nat.testBit_land, Nat.testBit_two_pow_sub_one]
  by_cases hi : i < 13
  · simp [hi]
  · have hfalse : b.testBit i = false := Nat.testBit_eq_false_of_lt
      (lt_of_lt_of_le hb (Nat.pow_le_pow_right (by norm_num) (by omega)))
    simp [hfalse, hi]

/-- C8 (amended): for every hand and every ranking consuming a single rank
(HighCard, OnePair, Trips, Quads — and the no-kicker rankings), the code's
`find_kickers` computes exactly the claim's procedure: rank-collapsed mask
AND-NOT the consumed rank, cleared from the lowest bit to the expected count
`{HighCard: 4, OnePair: 3, Trips: 2, Quads: 1, else: 0}`. For TwoPair the
code's mask is the OR of the two ranks' complements — the FULL 13-bit mask —
so the kickers are drawn from the whole rank mask and can include a consumed
pair rank, diverging from the claim's AND-NOT procedure. The clearing loop
itself is correct: it leaves exactly `min n (popcount)` bits. -/
theorem find_kickers_amended :
    (∀ (h : ℕ) (rk : Ranking),
      (match rk with | Ranking.twoPair _ _ => False | _ => True) →
        findKickers h rk = specKickers h rk) ∧
      (∀ (h hi lo : ℕ), hi < 13 → lo < 13 → hi ≠ lo →
        findKickers h (Ranking.twoPair hi lo) = clearLowLoop 16 1 (rankMask h)) ∧
      (∀ (n bits : ℕ), bits < 2 ^ 16 →
        popc (clearLowLoop 16 n bits) = min n (popc bits)) := by
  refine ⟨?_, ?_, ?_⟩
  · intro h rk hcase
    cases rk with
    | twoPair hi lo => exact hcase.elim
    | highCard r => rfl
    | onePair r => rfl
    | threeOAK r => rfl
    | straight r => rfl
    | flush r => rfl
    | fullHouse a b => rfl
    | fourOAK r => rfl
    | straightFlush r => rfl
  · intro h hi lo hhi hlo hne
    rw [findKickers]
    rw [u16OfRank_or_full hi (Finset.mem_range.mpr hhi) lo (Finset.mem_range.mpr hlo) hne]
    rw [land_mask13 _ (rankMask_lt h)]
  · intro n bits hb
    exact clearLowLoop_popc 16 n bits hb (by have := popc_le_16 bits hb; omega)

/-- Witness for C8's amended theorem at the hand As Ah Ks Kh Qs with the
rankings TwoPair(Ace, King) and OnePair(Ace). -/
theorem find_kickers_amended_witness :
    (12 : ℕ) < 13 ∧ (11 : ℕ) < 13 ∧ (12 : ℕ) ≠ 11 ∧
      findKickers (2 ^ 48 + 2 ^ 49 + 2 ^ 44 + 2 ^ 45 + 2 ^ 40) (Ranking.twoPair 12 11) =
        clearLowLoop 16 1 (rankMask (2 ^ 48 + 2 ^ 49 + 2 ^ 44 + 2 ^ 45 + 2 ^ 40)) ∧
      findKickers (2 ^ 48 + 2 ^ 49 + 2 ^ 44 + 2 ^ 45 + 2 ^ 40) (Ranking.onePair 12) =
        specKickers (2 ^ 48 + 2 ^ 49 + 2 ^ 44 + 2 ^ 45 + 2 ^ 40) (Ranking.onePair 12) :=
  ⟨by decide, by decide, by decide,
    find_kickers_amended.2.1 _ 12 11 (by decide) (by decide) (by decide),
    find_kickers_amended.1 _ (Ranking.onePair 12) trivial⟩

/- ====== Profile persistence (src/src/mccfr/profile.rs: save / From<&str>) ====== -/

/-- A stored `Decision` at the serialization level: the two `f32` fields as
their raw 32-bit words (the file writes and reads exact IEEE bit patterns,
so byte-level round-tripping is identity on the words). -/
structure Dec32 : Type where
  regret : ℕ
  policy : ℕ
deriving DecidableEq

/-- The `Profile` as persisted: the epoch counter and the strategies map. -/
structure SProfile : Type where
  iterations : ℕ
  strategies : List (Bucket × List (Edge × Dec32))
deriving DecidableEq

/-- Big-endian bytes of a `w`-byte unsigned integer. -/
def beBytes : ℕ → ℕ → List ℕ
  | 0, _ => []
  | w + 1, n => beBytes w (n / 256) ++ [n % 256]

/-- The value of a big-endian byte list. -/
def beVal (l : List ℕ) : ℕ := l.foldl (fun acc b => acc * 256 + b) 0

/-- Read `w` big-endian bytes (`read_exact` + `read_uXX::<BE>`): `none` when
fewer bytes remain. -/
def readBE (w : ℕ) (bs : List ℕ) : Option (ℕ × List ℕ) :=
  if w ≤ bs.length then some (beVal (bs.take w), bs.drop w) else none

/-- An edge whose odds survive the `u64` packing (numerator and denominator
fit in their 8-bit fields). -/
def EdgeOK64 : Edge → Prop
  | Edge.raise (n, d) => n < 256 ∧ d < 256
  | _ => True

lemma beBytes_length (w n : ℕ) : (beBytes w n).length = w := by
  induction w generalizing n with
  | zero => rfl
  | succ w ih =>
    rw [beBytes, List.length_append, ih]
    simp

lemma beVal_beBytes (w n : ℕ) (hn : n < 256 ^ w) : beVal (beBytes w n) = n := by
  induction w generalizing n with
  | zero =>
    rw [beBytes, beVal]
    simp at hn
    simp [hn]
  | succ w ih =>
    rw [beBytes, beVal, List.foldl_append]
    have hdiv : n / 256 < 256 ^ w := by
      rw [Nat.div_lt_iff_lt_mul (by norm_num)]
      calc n < 256 ^ (w + 1) := hn
      _ = 256 ^ w * 256 := by ring
    rw [show ∀ l : List ℕ, l.foldl (fun acc b => acc * 256 + b) 0 = beVal l from fun _ => rfl]
    rw [ih _ hdiv]
    simp [List.foldl_cons]
    omega

lemma readBE_exact (w n : ℕ) (rest : List ℕ) (hn : n < 256 ^ w) :
    readBE w (beBytes w n ++ rest) = some (n, rest) := by
  have hlen : (beBytes w n).length = w := beBytes_length w n
  rw [readBE, if_pos (by rw [List.length_append, hlen]; omega)]
  have hval : beVal (beBytes w n) = n := beVal_beBytes w n hn
  set L := beBytes w n with hL
  rw [← hlen, List.take_left, List.drop_left, hval]

/-- The body of one record after the `u16` field count: six length-prefixed
big-endian fields `past:u64, abstraction:u64, future:u64, edge:u64,
regret:f32, policy:f32` (profile.rs `save`). -/
def recordBody (b : Bucket) (e : Edge) (d : Dec32) : List ℕ :=
  beBytes 4 8 ++ (beBytes 8 b.1 ++ (beBytes 4 8 ++ (beBytes 8 b.2.1 ++
    (beBytes 4 8 ++ (beBytes 8 b.2.2 ++ (beBytes 4 8 ++ (beBytes 8 (u64OfEdge e) ++
      (beBytes 4 4 ++ (beBytes 4 d.regret ++ (beBytes 4 4 ++ beBytes 4 d.policy))))))))))

/-- The 19 bytes the loader skips: the 11-byte `PGCOPY` signature, 4 zero
flag bytes, 4 zero extension-length bytes (profile.rs `save`). -/
def headerBytes : List ℕ :=
  [80, 71, 67, 79, 80, 89, 10, 255, 13, 10, 0] ++ beBytes 4 0 ++ beBytes 4 0

/-- The flattening of the nested `for (bucket, policy) { for (edge, memory) }`
write loops of `Profile::save` (profile.rs). -/
def flatRecords : List (Bucket × List (Edge × Dec32)) → List (Bucket × Edge × Dec32)
  | [] => []
  | bs :: rest => bs.2.map (fun ed => (bs.1, ed.1, ed.2)) ++ flatRecords rest

/-- The byte stream of a record list: each record is the field count 6 then
its body. -/
def recsBytes : List (Bucket × Edge × Dec32) → List ℕ
  | [] => []
  | r :: rs => (beBytes 2 6 ++ recordBody r.1 r.2.1 r.2.2) ++ recsBytes rs

/-- `Profile::save` (profile.rs): header, every (bucket, edge, decision) row
in map iteration order, and the `0xFFFF` trailer. The epoch counter is not
written. -/
def saveBytes (p : SProfile) : List ℕ :=
  headerBytes ++ recsBytes (flatRecords p.strategies) ++ beBytes 2 0xFFFF

/-- One record of the load loop of `From<&str> for Profile` (profile.rs):
each `u32` length prefix is read and ignored, each field read at its fixed
width; every `.expect` is `none`. -/
def loadRecord (bs : List ℕ) : Option ((Bucket × Edge × Dec32) × List ℕ) :=
  (readBE 4 bs).bind (fun o1 =>
    (readBE 8 o1.2).bind (fun opast =>
      (readBE 4 opast.2).bind (fun o2 =>
        (readBE 8 o2.2).bind (fun oabs =>
          (readBE 4 oabs.2).bind (fun o3 =>
            (readBE 8 o3.2).bind (fun ofut =>
              (readBE 4 ofut.2).bind (fun o4 =>
                (readBE 8 o4.2).bind (fun oedge =>
                  (edgeOfU64 oedge.1).bind (fun e =>
                    (readBE 4 oedge.2).bind (fun o5 =>
                      (readBE 4 o5.2).bind (fun oreg =>
                        (readBE 4 oreg.2).bind (fun o6 =>
                          (readBE 4 o6.2).map (fun opol =>
                            (((opast.1, oabs.1, ofut.1), e,
                              Dec32.mk oreg.1 opol.1), opol.2))))))))))))))

/-- `BTreeMap::insert` on the inner edge map: overwrite or append. -/
def insEdge : List (Edge × Dec32) → Edge → Dec32 → List (Edge × Dec32)
  | [], e, d => [(e, d)]
  | kv :: rest, e, d => if kv.1 = e then (e, d) :: rest else kv :: insEdge rest e d

/-- `strategies.entry(bucket).or_insert_with(BTreeMap::new).insert(edge,
memory)` (profile.rs load loop). -/
def insRec (strategies : List (Bucket × List (Edge × Dec32)))
    (rec : Bucket × Edge × Dec32) : List (Bucket × List (Edge × Dec32)) :=
  match getA strategies rec.1 with
  | none => strategies ++ [(rec.1, [(rec.2.1, rec.2.2)])]
  | some _ => setA strategies rec.1 (fun inner => insEdge inner rec.2.1 rec.2.2)

/-- The `while reader.read_exact(&mut buffer).is_ok()` loop (profile.rs): an
EOF on the 2-byte read ends the loop, a field count other than 6 breaks, and
a full record is parsed and inserted. Fuel bounds the iterations; it is
always sufficient for well-formed input. -/
def loadLoop : ℕ → List (Bucket × List (Edge × Dec32)) → List ℕ →
    Option (List (Bucket × List (Edge × Dec32)))
  | 0, _, _ => none
  | fuel + 1, strategies, bs =>
    match readBE 2 bs with
    | none => some strategies
    | some o =>
      if o.1 = 6 then
        (loadRecord o.2).bind (fun out => loadLoop fuel (insRec strategies out.1) out.2)
      else some strategies

/-- `From<&str> for Profile` (profile.rs): seek past the 19 header bytes,
run the record loop from an empty map, and always set `iterations: 0`. -/
def loadProfile (bs : List ℕ) : Option SProfile :=
  (loadLoop (bs.length + 1) [] (bs.drop 19)).map (fun strategies => SProfile.mk 0 strategies)

lemma u64OfEdge_raise (n d : ℕ) (hn : n < 256) (hd : d < 256) :
    u64OfEdge (Edge.raise (n, d)) = 2048 * d + 8 * n + 4 := by
  have h1 : (n <<< 3) % 2 ^ 64 = 8 * n := by
    rw [Nat.shiftLeft_eq, Nat.mod_eq_of_lt (by norm_num; omega)]
    ring
  have h2 : (d <<< 11) % 2 ^ 64 = 2048 * d := by
    rw [Nat.shiftLeft_eq, Nat.mod_eq_of_lt (by norm_num; omega)]
    ring
  show 4 ||| ((n <<< 3) % 2 ^ 64) ||| ((d <<< 11) % 2 ^ 64) = 2048 * d + 8 * n + 4
  rw [h1, h2]
  have h3 : 4 ||| 8 * n = 8 * n + 4 := by
    rw [Nat.or_comm, show (8 : ℕ) * n = 2 ^ 3 * n by norm_num]
    exact (Nat.mul_add_lt_is_or (by norm_num) n).symm
  have h4 : (8 * n + 4) ||| 2048 * d = 2048 * d + (8 * n + 4) := by
    rw [Nat.or_comm, show (2048 : ℕ) * d = 2 ^ 11 * d by norm_num]
    exact (Nat.mul_add_lt_is_or (by norm_num; omega) d).symm
  rw [h3, h4]
  ring

lemma u64OfEdge_lt (e : Edge) : u64OfEdge e < 2 ^ 64 := by
  cases e with
  | raise odds =>
    obtain ⟨n, d⟩ := odds
    show 4 ||| ((n <<< 3) % 2 ^ 64) ||| ((d <<< 11) % 2 ^ 64) < 2 ^ 64
    apply Nat.or_lt_two_pow
    · apply Nat.or_lt_two_pow
      · norm_num
      · exact Nat.mod_lt _ (by norm_num)
    · exact Nat.mod_lt _ (by norm_num)
  | draw => norm_num [u64OfEdge]
  | fold => norm_num [u64OfEdge]
  | check => norm_num [u64OfEdge]
  | call => norm_num [u64OfEdge]
  | shove => norm_num [u64OfEdge]

lemma edgeOfU64_u64OfEdge (e : Edge) (hok : EdgeOK64 e) :
    edgeOfU64 (u64OfEdge e) = some e := by
  cases e with
  | raise odds =>
    obtain ⟨n, d⟩ := odds
    obtain ⟨hn, hd⟩ := hok
    rw [u64OfEdge_raise n d hn hd]
    have h7 : (2048 * d + 8 * n + 4) &&& 0b111 = 4 := by
      rw [show (0b111 : ℕ) = 2 ^ 3 - 1 by norm_num, Nat.and_pow_two_sub_one_eq_mod]
      omega
    have hc1 : ((2048 * d + 8 * n + 4) >>> 3) &&& 0xFF = n := by
      rw [Nat.shiftRight_eq_div_pow,
        show (0xFF : ℕ) = 2 ^ 8 - 1 by norm_num, Nat.and_pow_two_sub_one_eq_mod]
      norm_num
      omega
    have hc2 : ((2048 * d + 8 * n + 4) >>> 11) &&& 0xFF = d := by
      rw [Nat.shiftRight_eq_div_pow,
        show (0xFF : ℕ) = 2 ^ 8 - 1 by norm_num, Nat.and_pow_two_sub_one_eq_mod]
      norm_num
      omega
    simp only [edgeOfU64, h7, hc1, hc2]
  | draw => decide
  | fold => decide
  | check => decide
  | call => decide
  | shove => decide

/-- Well-formedness of one flattened record: all fields fit their widths. -/
def RecOK (r : Bucket × Edge × Dec32) : Prop :=
  r.1.1 < 2 ^ 64 ∧ r.1.2.1 < 2 ^ 64 ∧ r.1.2.2 < 2 ^ 64 ∧ EdgeOK64 r.2.1 ∧
    r.2.2.regret < 2 ^ 32 ∧ r.2.2.policy < 2 ^ 32

lemma loadRecord_exact (b : Bucket) (e : Edge) (d : Dec32) (rest : List ℕ)
    (hok : RecOK (b, e, d)) :
    loadRecord (recordBody b e d ++ rest) = some ((b, e, d), rest) := by
  obtain ⟨h1, h2, h3, he, hr, hp⟩ := hok
  have hlen : (256 : ℕ) ^ 4 = 2 ^ 32 := by norm_num
  have hlen8 : (256 : ℕ) ^ 8 = 2 ^ 64 := by norm_num
  have h4 : (8 : ℕ) < 256 ^ 4 := by norm_num
  have h44 : (4 : ℕ) < 256 ^ 4 := by norm_num
  rw [recordBody, loadRecord]
  simp only [List.append_assoc]
  rw [readBE_exact 4 8 _ h4, Option.some_bind]
  rw [readBE_exact 8 b.1 _ (by rw [hlen8]; exact h1), Option.some_bind]
  rw [readBE_exact 4 8 _ h4, Option.some_bind]
  rw [readBE_exact 8 b.2.1 _ (by rw [hlen8]; exact h2), Option.some_bind]
  rw [readBE_exact 4 8 _ h4, Option.some_bind]
  rw [readBE_exact 8 b.2.2 _ (by rw [hlen8]; exact h3), Option.some_bind]
  rw [readBE_exact 4 8 _ h4, Option.some_bind]
  rw [readBE_exact 8 (u64OfEdge e) _ (by rw [hlen8]; exact u64OfEdge_lt e), Option.some_bind]
  rw [edgeOfU64_u64OfEdge e he, Option.some_bind]
  rw [readBE_exact 4 4 _ h44, Option.some_bind]
  rw [readBE_exact 4 d.regret _ (by rw [hlen]; exact hr), Option.some_bind]
  rw [readBE_exact 4 4 _ h44, Option.some_bind]
  rw [readBE_exact 4 d.policy _ (by rw [hlen]; exact hp), Option.map_some']
  rfl

lemma loadLoop_run (rs : List (Bucket × Edge × Dec32)) :
    ∀ (fuel : ℕ) (strategies : List (Bucket × List (Edge × Dec32))),
      rs.length < fuel → (∀ r ∈ rs, RecOK r) →
      loadLoop fuel strategies (recsBytes rs ++ beBytes 2 0xFFFF) =
        some (rs.foldl insRec strategies) := by
  induction rs with
  | nil =>
    intro fuel strategies hfuel _
    obtain ⟨fuel, rfl⟩ : ∃ f, fuel = f + 1 := ⟨fuel - 1, by omega⟩
    rw [recsBytes, List.nil_append, loadLoop]
    have hFF : readBE 2 (beBytes 2 0xFFFF) = some (0xFFFF, []) := by
      have hx := readBE_exact 2 0xFFFF [] (by norm_num)
      simpa using hx
    rw [hFF]
    rfl
  | cons r rs ih =>
    intro fuel strategies hfuel hok
    obtain ⟨fuel, rfl⟩ : ∃ f, fuel = f + 1 := ⟨fuel - 1, by omega⟩
    rw [recsBytes, loadLoop]
    rw [List.append_assoc, List.append_assoc]
    rw [readBE_exact 2 6 _ (by norm_num)]
    show (if (6 : ℕ) = 6 then
        (loadRecord (recordBody r.1 r.2.1 r.2.2 ++ (recsBytes rs ++ beBytes 2 0xFFFF))).bind
          (fun out => loadLoop fuel (insRec strategies out.1) out.2)
      else some strategies) = some ((r :: rs).foldl insRec strategies)
    rw [if_pos rfl]
    rw [loadRecord_exact r.1 r.2.1 r.2.2 _ (hok r (List.mem_cons_self _ _)), Option.some_bind]
    rw [List.foldl_cons]
    exact ih fuel (insRec strategies r) (by simp at hfuel ⊢; omega)
      (fun x hx => hok x (List.mem_cons_of_mem _ hx))

lemma insEdge_fresh (inner : List (Edge × Dec32)) (e : Edge) (d : Dec32)
    (h : getA inner e = none) : insEdge inner e d = inner ++ [(e, d)] := by
  induction inner with
  | nil => rfl
  | cons kv rest ih =>
    by_cases hk : kv.1 = e
    · rw [getA, if_pos hk] at h
      cases h
    · rw [getA, if_neg hk] at h
      rw [insEdge, if_neg hk, List.cons_append, ih h]

lemma insRec_group (b : Bucket) (eds : List (Edge × Dec32)) :
    ∀ (acc : List (Bucket × List (Edge × Dec32))) (cur : List (Edge × Dec32)),
      getA acc b = none → (∀ ed ∈ eds, getA cur ed.1 = none) →
      (eds.map Prod.fst).Nodup →
      (eds.map (fun ed => (b, ed.1, ed.2))).foldl insRec (acc ++ [(b, cur)]) =
        acc ++ [(b, cur ++ eds)] := by
  induction eds with
  | nil =>
    intro acc cur _ _ _
    simp
  | cons ed eds ih =>
    intro acc cur hacc hcur hnd
    rw [List.map_cons, List.foldl_cons]
    have hget : getA (acc ++ [(b, cur)]) b = some cur :=
      getA_append_single_self acc b cur hacc
    have hstep : insRec (acc ++ [(b, cur)]) (b, ed.1, ed.2) =
        acc ++ [(b, insEdge cur ed.1 ed.2)] := by
      show (match getA (acc ++ [(b, cur)]) b with
        | none => (acc ++ [(b, cur)]) ++ [(b, [(ed.1, ed.2)])]
        | some _ => setA (acc ++ [(b, cur)]) b (fun inner => insEdge inner ed.1 ed.2)) =
          acc ++ [(b, insEdge cur ed.1 ed.2)]
      rw [hget]
      rw [setA_append_of_none acc _ b _ hacc]
      rw [setA, if_pos rfl]
    rw [hstep, insEdge_fresh cur ed.1 ed.2 (hcur ed (List.mem_cons_self _ _))]
    rw [List.map_cons, List.nodup_cons] at hnd
    have hcur' : ∀ ed' ∈ eds, getA (cur ++ [(ed.1, ed.2)]) ed'.1 = none := by
      intro ed' hed'
      refine getA_of_none_ne cur ed'.1 ed.1 (hcur ed' (List.mem_cons_of_mem _ hed')) ed.2 ?_
      intro hcontra
      exact hnd.1 (hcontra ▸ List.mem_map_of_mem Prod.fst hed')
    rw [ih acc (cur ++ [(ed.1, ed.2)]) hacc hcur' hnd.2]
    rw [List.append_assoc, List.singleton_append]

lemma flatRecords_fold (strategies : List (Bucket × List (Edge × Dec32))) :
    ∀ acc : List (Bucket × List (Edge × Dec32)),
      (∀ bs ∈ strategies, getA acc bs.1 = none) →
      (strategies.map Prod.fst).Nodup →
      (∀ bs ∈ strategies, bs.2 ≠ [] ∧ (bs.2.map Prod.fst).Nodup) →
      (flatRecords strategies).foldl insRec acc = acc ++ strategies := by
  induction strategies with
  | nil =>
    intro acc _ _ _
    simp [flatRecords]
  | cons bs rest ih =>
    intro acc hacc hnd hin
    obtain ⟨b, eds⟩ := bs
    rw [flatRecords, List.foldl_append]
    obtain ⟨hne, hednd⟩ := hin (b, eds) (List.mem_cons_self _ _)
    obtain ⟨ed, tail, rfl⟩ : ∃ ed tail, eds = ed :: tail := by
      cases eds with
      | nil => cases hne rfl
      | cons ed tail => exact ⟨ed, tail, rfl⟩
    rw [List.map_cons, List.foldl_cons]
    have hget0 : getA acc b = none := hacc (b, ed :: tail) (List.mem_cons_self _ _)
    have h1 : insRec acc (b, ed.1, ed.2) = acc ++ [(b, [(ed.1, ed.2)])] := by
      show (match getA acc b with
        | none => acc ++ [(b, [(ed.1, ed.2)])]
        | some _ => setA acc b (fun inner => insEdge inner ed.1 ed.2)) =
          acc ++ [(b, [(ed.1, ed.2)])]
      rw [hget0]
    rw [h1]
    simp only [List.map_cons, List.nodup_cons] at hednd
    have hcur : ∀ ed' ∈ tail, getA [(ed.1, ed.2)] ed'.1 = none := by
      intro ed' hed'
      have hne' : ed.1 ≠ ed'.1 := by
        intro hcontra
        exact hednd.1 (hcontra ▸ List.mem_map_of_mem Prod.fst hed')
      rw [getA, if_neg hne']
      rfl
    rw [insRec_group b tail acc [(ed.1, ed.2)] hget0 hcur hednd.2]
    rw [List.singleton_append]
    rw [List.map_cons, List.nodup_cons] at hnd
    have hacc' : ∀ bs' ∈ rest, getA (acc ++ [(b, ed :: tail)]) bs'.1 = none := by
      intro bs' hbs'
      refine getA_of_none_ne acc bs'.1 b (hacc bs' (List.mem_cons_of_mem _ hbs')) _ ?_
      intro hcontra
      have hmem : bs'.1 ∈ rest.map Prod.fst := List.mem_map_of_mem Prod.fst hbs'
      rw [← hcontra] at hmem
      exact hnd.1 hmem
    rw [ih (acc ++ [(b, ed :: tail)]) hacc' hnd.2
      (fun x hx => hin x (List.mem_cons_of_mem _ hx))]
    rw [List.append_assoc, List.singleton_append]

lemma flatRecords_recOK (strategies : List (Bucket × List (Edge × Dec32)))
    (h : ∀ bs ∈ strategies, bs.1.1 < 2 ^ 64 ∧ bs.1.2.1 < 2 ^ 64 ∧ bs.1.2.2 < 2 ^ 64 ∧
      ∀ ed ∈ bs.2, EdgeOK64 ed.1 ∧ ed.2.regret < 2 ^ 32 ∧ ed.2.policy < 2 ^ 32) :
    ∀ r ∈ flatRecords strategies, RecOK r := by
  induction strategies with
  | nil =>
    intro r hr
    cases hr
  | cons bs rest ih =>
    intro r hr
    rw [flatRecords] at hr
    rcases List.mem_append.mp hr with hl | hrr
    · obtain ⟨ed, hed, rfl⟩ := List.mem_map.mp hl
      obtain ⟨h1, h2, h3, hin⟩ := h bs (List.mem_cons_self _ _)
      obtain ⟨he, hreg, hpol⟩ := hin ed hed
      exact ⟨h1, h2, h3, he, hreg, hpol⟩
    · exact ih (fun x hx => h x (List.mem_cons_of_mem _ hx)) r hrr

lemma recsBytes_length (rs : List (Bucket × Edge × Dec32)) :
    (recsBytes rs).length = 66 * rs.length := by
  induction rs with
  | nil => rfl
  | cons r rs ih =>
    rw [recsBytes, List.length_append, ih]
    rw [List.length_append, beBytes_length, recordBody]
    simp only [List.length_append, beBytes_length, List.length_cons]
    ring

/-- A profile whose in-memory state survives the byte codec: distinct bucket
keys, nonempty inner edge maps with distinct edge keys (as `BTreeMap`
iteration guarantees), and every persisted field within its serialized
width. -/
def SProfileOK (p : SProfile) : Prop :=
  (p.strategies.map Prod.fst).Nodup ∧
  (∀ bs ∈ p.strategies, bs.2 ≠ [] ∧ (bs.2.map Prod.fst).Nodup) ∧
  (∀ bs ∈ p.strategies, bs.1.1 < 2 ^ 64 ∧ bs.1.2.1 < 2 ^ 64 ∧ bs.1.2.2 < 2 ^ 64 ∧
    ∀ ed ∈ bs.2, EdgeOK64 ed.1 ∧ ed.2.regret < 2 ^ 32 ∧ ed.2.policy < 2 ^ 32)

/-- C10: `Profile::save` writes only the strategies map (never the epoch
counter) and the load path (`From<&str> for Profile`) always constructs the
profile with `iterations: 0`, so a profile loaded from saved bytes has
iterations 0 regardless of the saved profile's iteration count, while the
strategies map round-trips exactly. -/
theorem profile_save_load_roundtrip (p : SProfile) (hok : SProfileOK p) :
    loadProfile (saveBytes p) = some (SProfile.mk 0 p.strategies) ∧
    ∀ n, saveBytes (SProfile.mk n p.strategies) = saveBytes p := by
  obtain ⟨hnd, hinner, hwidth⟩ := hok
  constructor
  · rw [loadProfile]
    have hdrop : (saveBytes p).drop 19 =
        recsBytes (flatRecords p.strategies) ++ beBytes 2 0xFFFF := by
      rw [saveBytes, List.append_assoc]
      rw [show (19 : ℕ) = headerBytes.length by rfl]
      exact List.drop_left _ _
    rw [hdrop]
    have hfuel : (flatRecords p.strategies).length < (saveBytes p).length + 1 := by
      have h1 : (recsBytes (flatRecords p.strategies)).length =
          66 * (flatRecords p.strategies).length := recsBytes_length _
      rw [saveBytes]
      simp only [List.length_append]
      omega
    rw [loadLoop_run (flatRecords p.strategies) _ [] hfuel
      (flatRecords_recOK p.strategies hwidth)]
    rw [flatRecords_fold p.strategies [] (fun _ _ => rfl) hnd hinner]
    rw [List.nil_append, Option.map_some']
  · intro n
    rfl

theorem profile_save_load_roundtrip_witness :
    SProfileOK (SProfile.mk 5 [((1, 2, 3), [(Edge.check, Dec32.mk 7 9)])]) ∧
    loadProfile (saveBytes (SProfile.mk 5 [((1, 2, 3), [(Edge.check, Dec32.mk 7 9)])])) =
      some (SProfile.mk 0 [((1, 2, 3), [(Edge.check, Dec32.mk 7 9)])]) := by
  have hok : SProfileOK (SProfile.mk 5 [((1, 2, 3), [(Edge.check, Dec32.mk 7 9)])]) := by
    refine ⟨by simp, ?_, ?_⟩
    · intro bs hbs
      simp only [List.mem_singleton] at hbs
      subst hbs
      exact ⟨by simp, by simp⟩
    · intro bs hbs
      simp only [List.mem_singleton] at hbs
      subst hbs
      refine ⟨by norm_num, by norm_num, by norm_num, ?_⟩
      intro ed hed
      simp only [List.mem_singleton] at hed
      subst hed
      exact ⟨trivial, by norm_num, by norm_num⟩
  exact ⟨hok, (profile_save_load_roundtrip (SProfile.mk 5
    [((1, 2, 3), [(Edge.check, Dec32.mk 7 9)])]) hok).1⟩
